import Mathlib

/-!
Verification development for the SilentLedger repository.

The repository consists of:
* `home/src/lib/ledgerCrypto.ts` — the wire-format symmetric cipher
  (`encryptWithAddressKey` / `decryptWithAddressKey`), built on the Web
  Crypto platform primitives `btoa`/`atob` (base64), SHA-256 and AES-GCM;
* `contracts/SilentLedger.sol` — the on-chain ledger state machine
  (createLedger / rotateLedgerKey / storeEntry / getEntry / getEntryCount);
* `home/src/components/LedgerApp.tsx` — the client orchestration
  (refresh, decryptAll, unlock/lock session).

Bytes are modelled as `Nat` values below 256, byte strings as `List Nat`,
and JS strings as `List Char`.  Fallible operations return `Except`/`Option`.
-/

set_option maxRecDepth 16384

deriving instance DecidableEq for Except

/-- A byte list: every element is below 256. -/
def BytesOk (bs : List Nat) : Prop := ∀ b ∈ bs, b < 256

instance : DecidablePred BytesOk := fun bs =>
  inferInstanceAs (Decidable (∀ b ∈ bs, b < 256))

/-! ### Base64 (the platform `btoa` / `atob` primitives)

`bytesToBase64` in `ledgerCrypto.ts` builds a binary string and calls `btoa`,
which is standard base64 with `=` padding.  `base64ToBytes` calls `atob`,
which implements the WHATWG "forgiving-base64 decode": strip ASCII
whitespace, strip up to two trailing `=` when the length is a multiple of
four, reject length ≡ 1 (mod 4) and non-alphabet characters, and ignore
leftover bits of a final partial group. -/

/-- The 64 characters of the base64 alphabet, in value order. -/
def b64Alphabet : List Char :=
  "ABCDEFGHIJKLMNOPQRSTUVWXYZabcdefghijklmnopqrstuvwxyz0123456789+/".data

/-- Character at a given 6-bit value. -/
def sixToChar (v : Nat) : Char := b64Alphabet.getD v 'A'

/-- Index of a character in a list, if present. -/
def charIdx : List Char → Char → Option Nat
  | [], _ => none
  | a :: r, c => if a = c then some 0 else (charIdx r c).map (· + 1)

/-- 6-bit value of a base64 character, if it is in the alphabet. -/
def b64CharVal (c : Char) : Option Nat := charIdx b64Alphabet c

/-- 6-bit values of a byte list (base64 value stream, no padding). -/
def b64EncVals : List Nat → List Nat
  | [] => []
  | [b] => [b / 4, b % 4 * 16]
  | [b1, b2] => [b1 / 4, b1 % 4 * 16 + b2 / 16, b2 % 16 * 4]
  | b1 :: b2 :: b3 :: r =>
      b1 / 4 :: (b1 % 4 * 16 + b2 / 16) :: (b2 % 16 * 4 + b3 / 64) :: b3 % 64 ::
        b64EncVals r

/-- Padding characters appended by `btoa`. -/
def padChars (bs : List Nat) : List Char :=
  match bs.length % 3 with
  | 1 => ['=', '=']
  | 2 => ['=']
  | _ => []

/-- `btoa` on a byte list: standard base64 with padding. -/
def btoaBytes (bs : List Nat) : List Char :=
  (b64EncVals bs).map sixToChar ++ padChars bs

/-- `bytesToBase64` from `ledgerCrypto.ts` (chunked `String.fromCharCode`
followed by `btoa`; the chunking does not affect the result). -/
def bytesToBase64 (bs : List Nat) : List Char := btoaBytes bs

/-- Reassemble bytes from a 6-bit value stream, ignoring leftover bits of a
final partial group; a single leftover value is invalid. -/
def valsToBytes : List Nat → Option (List Nat)
  | [] => some []
  | [_] => none
  | [v1, v2] => some [v1 * 4 + v2 / 16]
  | [v1, v2, v3] => some [v1 * 4 + v2 / 16, v2 % 16 * 16 + v3 / 4]
  | v1 :: v2 :: v3 :: v4 :: r =>
      (valsToBytes r).map fun bs =>
        (v1 * 4 + v2 / 16) :: (v2 % 16 * 16 + v3 / 4) :: (v3 % 4 * 64 + v4) :: bs

/-- Map characters to 6-bit values; fails on any non-alphabet character. -/
def charsToVals : List Char → Option (List Nat)
  | [] => some []
  | c :: r =>
      match b64CharVal c, charsToVals r with
      | some v, some vs => some (v :: vs)
      | _, _ => none

/-- ASCII whitespace stripped by forgiving-base64 decode. -/
def isB64Ws (c : Char) : Bool :=
  c = ' ' ∨ c = '\t' ∨ c = '\n' ∨ c = '\r' ∨ c = '\x0c'

/-- Remove one or two leading `=` of a reversed character list. -/
def stripPadRev (l : List Char) : List Char :=
  if l.take 2 = ['=', '='] then l.drop 2
  else if l.take 1 = ['='] then l.drop 1
  else l

/-- Remove one or two trailing `=`. -/
def stripPad (l : List Char) : List Char := (stripPadRev l.reverse).reverse

/-- `atob` on a character list (WHATWG forgiving-base64 decode). -/
def atobChars (s : List Char) : Option (List Nat) :=
  let s1 := s.filter (fun c => !(isB64Ws c))
  let s2 := if s1.length % 4 = 0 then stripPad s1 else s1
  if s2.length % 4 = 1 then none
  else (charsToVals s2).bind valsToBytes

/-- `base64ToBytes` from `ledgerCrypto.ts` (`atob` + char codes). -/
def base64ToBytes (s : List Char) : Option (List Nat) := atobChars s

/-- Number of bytes decoded from `n` base64 values (`n % 4 ≠ 1`). -/
def dLen (n : Nat) : Nat :=
  3 * (n / 4) + (match n % 4 with | 2 => 1 | 3 => 2 | _ => 0)

/-- The byte positions that can be affected by changing the base64 value at
position `j`: at most two adjacent positions inside group `j / 4`. -/
def valWindow (j : Nat) : List Nat :=
  match j % 4 with
  | 0 => [3 * (j / 4)]
  | 1 => [3 * (j / 4), 3 * (j / 4) + 1]
  | 2 => [3 * (j / 4) + 1, 3 * (j / 4) + 2]
  | _ => [3 * (j / 4) + 2]

/-! ### Addresses and hex decoding (`ledgerCrypto.ts`) -/

/-- Hexadecimal digit test, one character class of `ADDRESS_RE`. -/
def isHexDigitChar (c : Char) : Bool :=
  ('0' ≤ c ∧ c ≤ '9') ∨ ('a' ≤ c ∧ c ≤ 'f') ∨ ('A' ≤ c ∧ c ≤ 'F')

/-- The regular expression test of `ADDRESS_RE = /^0x[a-fA-F0-9]{40}$/`. -/
def addressReTest (s : List Char) : Bool :=
  match s with
  | '0' :: 'x' :: rest => rest.length = 40 && rest.all isHexDigitChar
  | _ => false

/-- Errors thrown by `ledgerCrypto.ts` and the platform primitives it uses:
the `Invalid address key` error of `assertAddress`, the
`Unsupported ciphertext format` error of `decryptWithAddressKey`, the
`InvalidCharacterError` thrown by `atob`, and the `OperationError` with which
`crypto.subtle.decrypt` rejects on AES-GCM authentication failure. -/
inductive CryptoError where
  | invalidAddress (address : List Char)
  | unsupportedFormat
  | invalidCharacter
  | operationError
deriving DecidableEq, Repr

/-- `assertAddress` from `ledgerCrypto.ts`: throws on a malformed key. -/
def assertAddress (address : List Char) : Except CryptoError Unit :=
  if addressReTest address then .ok () else .error (.invalidAddress address)

/-- Value of one hex digit character (`Number.parseInt` base 16, valid digits). -/
def hexDigitVal (c : Char) : Nat :=
  if '0' ≤ c ∧ c ≤ '9' then c.toNat - 48
  else if 'a' ≤ c ∧ c ≤ 'f' then c.toNat - 87
  else if 'A' ≤ c ∧ c ≤ 'F' then c.toNat - 55
  else 0

/-- Consecutive hex digit pairs to bytes. -/
def hexPairs : List Char → List Nat
  | c1 :: c2 :: r => (hexDigitVal c1 * 16 + hexDigitVal c2) :: hexPairs r
  | _ => []

/-- `hexToBytes` from `ledgerCrypto.ts`: strip an optional `0x`, then parse
two-digit pairs (only ever called on a validated 40-digit address). -/
def hexToBytes (s : List Char) : List Nat :=
  hexPairs (match s with | '0' :: 'x' :: r => r | l => l)

/-- Modelled from the spec: SHA-256 (`crypto.subtle.digest`) is an external
Web Crypto primitive, not code of this repository; per §4.3 the derivation is
a one-way hash of the raw key bytes.  It is modelled as an injective 32-byte
digest of the 20 address bytes. -/
def sha256Model (bs : List Nat) : List Nat := bs ++ List.replicate 12 0

/-- `deriveAesKeyFromAddress` from `ledgerCrypto.ts`: validate the address,
decode its bytes, digest them into the AES key. -/
def deriveAesKeyFromAddress (addressKey : List Char) :
    Except CryptoError (List Nat) :=
  match assertAddress addressKey with
  | .error e => .error e
  | .ok _ => .ok (sha256Model (hexToBytes addressKey))

/-! ### The AEAD primitive

AES-GCM (`crypto.subtle.encrypt` / `crypto.subtle.decrypt`) is an external
Web Crypto primitive, not code of this repository.  Modelled from the spec:
§4.3 and the glossary specify an authenticated-encryption transform whose
decryption inverts encryption under the same key and nonce and fails on any
other input ("encryption that also detects tampering"), the output being the
encrypted body followed by the 16-byte authentication tag, `m.length + 16`
bytes in all.  It is modelled as an ideal AEAD: `gcmDecrypt key iv` succeeds
exactly on the range of `gcmEncrypt key iv`, via a redundant encoding
(length header, doubled body, key and nonce binding) in place of the 16-byte
polynomial tag — idealizing that authentication never validates a modified
or truncated input.  No deterministic encoding of length exactly
`m.length + 16` can realize that ideal: with only 16 redundant bytes, for
suitable plaintexts some truncation of a valid ciphertext is again a valid
ciphertext (of a different plaintext), which the spec's "tamper ⇒ fail"
reading excludes.  What the base64 wire format observes of the output
*length* is its residue modulo 3, which fixes the tail geometry: the number
of `=` padding characters and the number of unused (leftover) bits carried
by the final base64 character.  The model therefore pads its output with
`2 * (m.length % 3)` zero bytes so that its length is congruent to the real
output length `m.length + 16` modulo 3 for every plaintext (with the 32-byte
key and 12-byte nonce of this application: `52 + 2*L + 2*(L % 3) ≡ L + 16`
mod 3), so a wire position carries leftover bits in the model exactly when
it does in the real program.
-/

/-- Big-endian 8-byte encoding of a length. -/
def len8 (n : Nat) : List Nat :=
  [n / 72057594037927936 % 256, n / 281474976710656 % 256,
   n / 1099511627776 % 256, n / 4294967296 % 256, n / 16777216 % 256,
   n / 65536 % 256, n / 256 % 256, n % 256]

/-- Ideal-AEAD model of AES-GCM encryption (see section comment); the
trailing zero padding aligns the output length with the real
`m.length + 16` modulo 3. -/
def gcmEncrypt (key iv m : List Nat) : List Nat :=
  len8 m.length ++ m ++ m ++ key ++ iv ++ List.replicate (2 * (m.length % 3)) 0

/-- Ideal-AEAD model of AES-GCM decryption: succeeds exactly on the range of
`gcmEncrypt key iv`, returning the unique preimage. -/
def gcmDecrypt (key iv c : List Nat) : Option (List Nat) :=
  let ov := 8 + key.length + iv.length
  if c.length < ov then none
  else
    let q := (c.length - ov) / 2
    let p := (c.drop 8).take (q - (3 - q % 3) % 3)
    if c = gcmEncrypt key iv p then some p else none

/-! ### The wire format (`ledgerCrypto.ts`) -/

/-- JS `String.prototype.split(':')`. -/
def splitOnColon : List Char → List (List Char)
  | [] => [[]]
  | c :: r =>
      if c = ':' then [] :: splitOnColon r
      else
        match splitOnColon r with
        | [] => [[c]]
        | h :: t => (c :: h) :: t

/-- `encryptWithAddressKey` from `ledgerCrypto.ts`.  The plaintext is given
as its UTF-8 bytes (`TextEncoder`), and the fresh 12-byte random nonce
(`crypto.getRandomValues`) is passed as the `iv` parameter. -/
def encryptWithAddressKey (plaintext : List Nat) (addressKey : List Char)
    (iv : List Nat) : Except CryptoError (List Char) :=
  match deriveAesKeyFromAddress addressKey with
  | .error e => .error e
  | .ok key =>
      let cipherBytes := gcmEncrypt key iv plaintext
      .ok ("sl1:".data ++ bytesToBase64 iv ++ ":".data ++
        bytesToBase64 cipherBytes)

/-- `decryptWithAddressKey` from `ledgerCrypto.ts`: split on `:`, check the
`sl1` version tag and that the nonce and ciphertext segments are present and
non-empty (JS destructuring plus falsiness), then derive the key, base64
decode, and AEAD-decrypt.  The result is the plaintext's UTF-8 bytes. -/
def decryptWithAddressKey (payload : List Char) (addressKey : List Char) :
    Except CryptoError (List Nat) :=
  let parts := splitOnColon payload
  let pfx := parts.headD []
  let ivB64 := parts.getD 1 []
  let cipherB64 := parts.getD 2 []
  if pfx ≠ "sl1".data ∨ ivB64 = [] ∨ cipherB64 = [] then
    .error .unsupportedFormat
  else
    match deriveAesKeyFromAddress addressKey with
    | .error e => .error e
    | .ok key =>
        match base64ToBytes ivB64 with
        | none => .error .invalidCharacter
        | some iv =>
            match base64ToBytes cipherB64 with
            | none => .error .invalidCharacter
            | some cipherBytes =>
                match gcmDecrypt key iv cipherBytes with
                | none => .error .operationError
                | some plain => .ok plain

/-- JS error message of a `CryptoError` (`err.message`). -/
def errorMessage : CryptoError → List Char
  | .invalidAddress a => "Invalid address key: ".data ++ a
  | .unsupportedFormat => "Unsupported ciphertext format".data
  | .invalidCharacter => "InvalidCharacterError".data
  | .operationError => "OperationError".data

/-! ### The SilentLedger contract (`contracts/SilentLedger.sol`)

Owners are addresses, modelled as strings.  `eaddress` is an opaque FHE
ciphertext handle; `FHE.fromExternal` is the external FHEVM primitive that
verifies the input proof and converts the external handle, modelled as the
opaque pair of its arguments.  The FHE access-control side effects
(`FHE.allowThis` / `FHE.allow`) and emitted events live outside the contract
storage and are not part of the state.  `block.timestamp` is passed as an
explicit parameter.  Solidity `revert` semantics: an operation either
returns a new state or fails with an error and leaves the state unchanged
(`applyTx`). -/

structure PouchEntry where
  createdAt : Nat
  ciphertext : List Char
deriving DecidableEq, Repr

structure LedgerState where
  _hasLedger : String → Bool
  _ledgerKey : String → Nat × Nat
  _pouch : String → List PouchEntry

inductive LedgerError where
  | ledgerAlreadyExists (owner : String)
  | ledgerNotFound (owner : String)
  | entryIndexOutOfBounds (owner : String) (index : Nat)
deriving DecidableEq, Repr

/-- `FHE.fromExternal(encryptedKey, inputProof)`, modelled opaquely. -/
def fheFromExternal (encryptedKey inputProof : Nat) : Nat × Nat :=
  (encryptedKey, inputProof)

namespace SilentLedger

/-- Contract storage right after deployment: all mappings at zero values. -/
def initialState : LedgerState :=
  { _hasLedger := fun _ => false
    _ledgerKey := fun _ => (0, 0)
    _pouch := fun _ => [] }

/-- `hasLedger(owner)`. -/
def hasLedger (owner : String) (st : LedgerState) : Bool :=
  st._hasLedger owner

/-- `createLedger(encryptedKey, inputProof)`; `owner = msg.sender`. -/
def createLedger (owner : String) (encryptedKey inputProof : Nat)
    (st : LedgerState) : Except LedgerError LedgerState :=
  if st._hasLedger owner then .error (.ledgerAlreadyExists owner)
  else
    let key := fheFromExternal encryptedKey inputProof
    .ok { st with
      _hasLedger := fun o => if o = owner then true else st._hasLedger o
      _ledgerKey := fun o => if o = owner then key else st._ledgerKey o }

/-- `rotateLedgerKey(encryptedKey, inputProof)`; `owner = msg.sender`. -/
def rotateLedgerKey (owner : String) (encryptedKey inputProof : Nat)
    (st : LedgerState) : Except LedgerError LedgerState :=
  if !st._hasLedger owner then .error (.ledgerNotFound owner)
  else
    let key := fheFromExternal encryptedKey inputProof
    .ok { st with
      _ledgerKey := fun o => if o = owner then key else st._ledgerKey o }

/-- `getLedgerKey(owner)`. -/
def getLedgerKey (owner : String) (st : LedgerState) :
    Except LedgerError (Nat × Nat) :=
  if !st._hasLedger owner then .error (.ledgerNotFound owner)
  else .ok (st._ledgerKey owner)

/-- `storeEntry(ciphertext)`; `owner = msg.sender`, `timestamp =
block.timestamp`. -/
def storeEntry (owner : String) (ciphertext : List Char) (timestamp : Nat)
    (st : LedgerState) : Except LedgerError LedgerState :=
  if !st._hasLedger owner then .error (.ledgerNotFound owner)
  else
    .ok { st with
      _pouch := fun o =>
        if o = owner then st._pouch owner ++ [⟨timestamp, ciphertext⟩]
        else st._pouch o }

/-- `getEntryCount(owner)`. -/
def getEntryCount (owner : String) (st : LedgerState) : Nat :=
  (st._pouch owner).length

/-- `getEntry(owner, index)`. -/
def getEntry (owner : String) (index : Nat) (st : LedgerState) :
    Except LedgerError (Nat × List Char) :=
  if h : index < (st._pouch owner).length then
    let e := (st._pouch owner).get ⟨index, h⟩
    .ok (e.createdAt, e.ciphertext)
  else .error (.entryIndexOutOfBounds owner index)

/-- Transaction semantics of the ledger substrate: a reverting call leaves
the state unchanged. -/
def applyTx (f : LedgerState → Except LedgerError LedgerState)
    (st : LedgerState) : LedgerState :=
  match f st with
  | .ok st2 => st2
  | .error _ => st

/-- A sequence of `storeEntry` calls by `owner`, each with its ciphertext
string and `block.timestamp`; fails on the first reverting call. -/
def storeAll (owner : String) (entries : List (List Char × Nat))
    (st : LedgerState) : Except LedgerError LedgerState :=
  match entries with
  | [] => .ok st
  | (c, t) :: rest =>
      match storeEntry owner c t st with
      | .error e => .error e
      | .ok st2 => storeAll owner rest st2

end SilentLedger

/-! ### The client (`home/src/components/LedgerApp.tsx`) -/

/-- The `Entry` record of `LedgerApp.tsx`. -/
structure FrontEntry where
  index : Nat
  createdAt : Nat
  ciphertext : List Char
  plaintext : Option (List Nat) := none
  decryptError : Option (List Char) := none
deriving DecidableEq, Repr

namespace LedgerApp

/-- One step of the `decryptAll` map in `LedgerApp.tsx` (lines 154-169):
an already-settled entry is returned unchanged; otherwise the entry's own
ciphertext is decrypted and its own success or failure recorded. -/
def decryptEntryOnce (ledgerKeyAddress : List Char) (e : FrontEntry) :
    FrontEntry :=
  if e.plaintext ≠ none ∨ e.decryptError ≠ none then e
  else
    match decryptWithAddressKey e.ciphertext ledgerKeyAddress with
    | .ok p => { e with plaintext := some p, decryptError := none }
    | .error err =>
        { e with plaintext := none, decryptError := some (errorMessage err) }

/-- `decryptAll` from `LedgerApp.tsx`: `Promise.all` over the per-entry
decryptions; `Promise.all` resolves with the results in argument order
regardless of completion order, so the batch is the order-preserving map. -/
def decryptAll (ledgerKeyAddress : List Char) (entries : List FrontEntry) :
    List FrontEntry :=
  entries.map (decryptEntryOnce ledgerKeyAddress)

/-- `start = Math.max(0, safeCount - 25)` from `refresh`. -/
def refreshStart (count : Nat) : Nat := count - 25

/-- The index list `indices` built by `refresh`: ascending from `start`. -/
def refreshIndices (count : Nat) : List Nat :=
  (List.range (count - refreshStart count)).map (· + refreshStart count)

/-- The entry list produced by `refresh` (lines 110-127): `Promise.all` over
`getEntry` calls at `indices`, resolving in argument order.  The reads
cannot revert for these indices; a reverting read is mapped to a dummy
entry (it is unreachable). -/
def refreshEntries (owner : String) (st : LedgerState) : List FrontEntry :=
  (refreshIndices (SilentLedger.getEntryCount owner st)).map fun i =>
    match SilentLedger.getEntry owner i st with
    | .ok (t, c) => { index := i, createdAt := t, ciphertext := c }
    | .error _ => { index := i, createdAt := 0, ciphertext := [] }

/-- The render order of the pouch list (lines 490-492):
`entries.slice().reverse()`. -/
def displayedEntries (entries : List FrontEntry) : List FrontEntry :=
  entries.reverse

/-- Events acting on the unlock session's clear key (`ledgerKeyAddress`
state of `LedgerApp.tsx`).  The state is `some clearKey` when unlocked,
`none` when locked.  `unlockSuccess` is line 282, `lockAction` line 304,
`refreshNoLedger` line 87 (refresh observing `hasLedger == false`);
`sessionEnd` is the end of the browser session, which drops all React state
(nothing is persisted: the wagmi storage is an in-memory `Map`).
`timePass` models elapsed wall-clock time: the component has no timer and no
validity-window check, so no code runs when time passes. -/
inductive SessionEvent where
  | unlockSuccess (clearKey : List Char)
  | unlockFailure
  | lockAction
  | refreshNoLedger
  | sessionEnd
  | timePass (seconds : Nat)
deriving DecidableEq, Repr

/-- Transition of the unlock session state under one event. -/
def sessionStep (ev : SessionEvent) (ledgerKeyAddress : Option (List Char)) :
    Option (List Char) :=
  match ev with
  | .unlockSuccess k => some k
  | .unlockFailure => ledgerKeyAddress
  | .lockAction => none
  | .refreshNoLedger => none
  | .sessionEnd => none
  | .timePass _ => ledgerKeyAddress

end LedgerApp

/-! ### Concrete example values used by witnesses and counterexamples -/

/-- A well-formed clear key: the zero address. -/
def exKey : List Char := "0x0000000000000000000000000000000000000000".data

/-- A malformed clear key. -/
def exBadKey : List Char := "0x00".data

/-- A two-byte plaintext. -/
def exM : List Nat := [0, 0]

/-- A 12-byte nonce. -/
def exIv : List Nat := List.replicate 12 0

/-- The wire string produced by encrypting `exM` under `exKey` with `exIv`. -/
def exWire : List Char := (encryptWithAddressKey exM exKey exIv).toOption.getD []

/-- A one-byte plaintext: the real AES-GCM output for it is `1 + 16 = 17`
bytes, `17 % 3 = 2`, so its base64 ends with one `=` whose preceding
character carries two unused bits (the model ciphertext length is `≡ 17`
mod 3 by construction). -/
def exM1 : List Nat := [0]

/-- The wire string produced by encrypting `exM1` under `exKey` with
`exIv`. -/
def exWire1 : List Char :=
  (encryptWithAddressKey exM1 exKey exIv).toOption.getD []

/-- `exWire1` with one byte changed: position `length - 2` is the final
base64 value character (just before the padding `=`); it carries two unused
leftover bits, so `'A'` and `'B'` decode to the same bytes. -/
def exTampered1 : List Char := exWire1.set (exWire1.length - 2) 'B'

/-- A ledger state where owner `alice` has created a ledger. -/
def exSt0 : LedgerState :=
  SilentLedger.applyTx (SilentLedger.createLedger "alice" 1 2)
    SilentLedger.initialState

/-- Two ciphertext strings with their `block.timestamp` values. -/
def exXs : List (List Char × Nat) := [("c1".data, 100), ("c2".data, 200)]

/-- The state after `alice` stores the two entries of `exXs`. -/
def exStAfter : LedgerState :=
  SilentLedger.applyTx (SilentLedger.storeAll "alice" exXs) exSt0

/-- A batch of fetched client entries: one valid wire string and one
garbage ciphertext. -/
def exFront : List FrontEntry :=
  [{ index := 0, createdAt := 100, ciphertext := exWire },
   { index := 1, createdAt := 200, ciphertext := "garbage".data }]

theorem valsToBytes_encVals (bs : List Nat) (h : BytesOk bs) :
    valsToBytes (b64EncVals bs) = some bs := by
  induction bs using b64EncVals.induct with
  | case1 => rfl
  | case2 b =>
      have hb : b < 256 := h b (by simp)
      simp only [b64EncVals, valsToBytes, Option.some.injEq, List.cons.injEq, and_true]
      omega
  | case3 b1 b2 =>
      have hb1 : b1 < 256 := h b1 (by simp)
      have hb2 : b2 < 256 := h b2 (by simp)
      simp only [b64EncVals, valsToBytes, Option.some.injEq, List.cons.injEq, and_true]
      omega
  | case4 b1 b2 b3 r ih =>
      have hb1 : b1 < 256 := h b1 (by simp)
      have hb2 : b2 < 256 := h b2 (by simp)
      have hb3 : b3 < 256 := h b3 (by simp)
      have hr : BytesOk r := fun b hb => h b (by simp [hb])
      simp only [b64EncVals, valsToBytes, ih hr, Option.map_some', Option.some.injEq,
        List.cons.injEq, and_true]
      omega

theorem charIdx_spec {l : List Char} {c : Char} :
    ∀ {i : Nat}, charIdx l c = some i → i < l.length ∧ l.getD i 'A' = c := by
  induction l with
  | nil => intro i h; simp [charIdx] at h
  | cons a r ih =>
      intro i h
      simp only [charIdx] at h
      by_cases hac : a = c
      · simp [hac] at h
        subst h
        simp [hac]
      · simp only [if_neg hac, Option.map_eq_some'] at h
        obtain ⟨j, hj, hij⟩ := h
        obtain ⟨hlt, hget⟩ := ih hj
        subst hij
        refine ⟨by simpa using hlt, by simpa using hget⟩

theorem b64CharVal_spec {c : Char} {v : Nat} (h : b64CharVal c = some v) :
    v < 64 ∧ sixToChar v = c := by
  have hs := charIdx_spec (l := b64Alphabet) (c := c) h
  have hlen : b64Alphabet.length = 64 := by decide
  exact ⟨hlen ▸ hs.1, hs.2⟩

theorem b64CharVal_sixToChar : ∀ v, v < 64 → b64CharVal (sixToChar v) = some v := by
  decide

theorem sixToChar_props : ∀ v, v < 64 →
    sixToChar v ≠ '=' ∧ sixToChar v ≠ ':' ∧ isB64Ws (sixToChar v) = false := by
  decide

theorem b64EncVals_lt64 (bs : List Nat) (h : BytesOk bs) :
    ∀ v ∈ b64EncVals bs, v < 64 := by
  induction bs using b64EncVals.induct with
  | case1 => simp [b64EncVals]
  | case2 b =>
      have hb : b < 256 := h b (by simp)
      simp only [b64EncVals, List.mem_cons, List.not_mem_nil, or_false]
      rintro v (rfl | rfl) <;> omega
  | case3 b1 b2 =>
      have hb1 : b1 < 256 := h b1 (by simp)
      have hb2 : b2 < 256 := h b2 (by simp)
      simp only [b64EncVals, List.mem_cons, List.not_mem_nil, or_false]
      rintro v (rfl | rfl | rfl) <;> omega
  | case4 b1 b2 b3 r ih =>
      have hb1 : b1 < 256 := h b1 (by simp)
      have hb2 : b2 < 256 := h b2 (by simp)
      have hb3 : b3 < 256 := h b3 (by simp)
      have hr : BytesOk r := fun b hb => h b (by simp [hb])
      simp only [b64EncVals, List.mem_cons]
      rintro v (rfl | rfl | rfl | rfl | hv)
      · omega
      · omega
      · omega
      · omega
      · exact ih hr v hv

theorem b64EncVals_length (bs : List Nat) :
    (b64EncVals bs).length =
      bs.length / 3 * 4 + bs.length % 3 + (if bs.length % 3 = 0 then 0 else 1) := by
  induction bs using b64EncVals.induct with
  | case1 => simp [b64EncVals]
  | case2 b => simp [b64EncVals]
  | case3 b1 b2 => simp [b64EncVals]
  | case4 b1 b2 b3 r ih =>
      simp only [b64EncVals, List.length_cons, ih, List.length_cons]
      split_ifs <;> omega

theorem charsToVals_map (vs : List Nat) (h : ∀ v ∈ vs, v < 64) :
    charsToVals (vs.map sixToChar) = some vs := by
  induction vs with
  | nil => rfl
  | cons v r ih =>
      have hv : v < 64 := h v (by simp)
      have hr : ∀ w ∈ r, w < 64 := fun w hw => h w (by simp [hw])
      simp only [List.map_cons, charsToVals, b64CharVal_sixToChar v hv, ih hr]

theorem stripPadRev_of_head_ne {l : List Char}
    (h : ∀ hd, l.head? = some hd → hd ≠ '=') : stripPadRev l = l := by
  cases l with
  | nil => rfl
  | cons c t =>
      have hc : c ≠ '=' := h c rfl
      simp only [stripPadRev, List.take_succ_cons]
      rw [if_neg, if_neg]
      · simp [hc]
      · simp [hc]

theorem stripPad_no_pad {l : List Char} (h : ∀ c ∈ l, c ≠ '=') :
    stripPad l = l := by
  unfold stripPad
  rw [stripPadRev_of_head_ne, List.reverse_reverse]
  intro hd hh
  have hmem : hd ∈ l.reverse := by
    cases hr : l.reverse with
    | nil => rw [hr] at hh; simp at hh
    | cons a t =>
        rw [hr] at hh
        simp only [List.head?_cons, Option.some.injEq] at hh
        simp [hh.symm]
  exact h hd (List.mem_reverse.mp hmem)

theorem stripPad_two (l : List Char) : stripPad (l ++ ['=', '=']) = l := by
  unfold stripPad stripPadRev
  simp [List.reverse_append]

theorem stripPad_one {l : List Char} (h : ∀ c ∈ l, c ≠ '=') :
    stripPad (l ++ ['=']) = l := by
  unfold stripPad stripPadRev
  rw [List.reverse_append]
  cases hr : l.reverse with
  | nil =>
      have : l = [] := by simpa using congrArg List.reverse hr
      subst this
      rfl
  | cons a t =>
      have ha : a ≠ '=' := by
        apply h
        rw [← List.mem_reverse, hr]
        simp
      simp [ha]
      rw [← List.reverse_reverse l, hr]
      simp

theorem padChars_mem (bs : List Nat) : ∀ c ∈ padChars bs, c = '=' := by
  intro c hc
  have h0 : bs.length % 3 = 0 ∨ bs.length % 3 = 1 ∨ bs.length % 3 = 2 := by omega
  unfold padChars at hc
  rcases h0 with h0 | h0 | h0 <;> rw [h0] at hc <;> simp at hc <;> simp [hc]

theorem padChars_length (bs : List Nat) :
    (padChars bs).length =
      (if bs.length % 3 = 0 then 0 else 3 - bs.length % 3) := by
  have h0 : bs.length % 3 = 0 ∨ bs.length % 3 = 1 ∨ bs.length % 3 = 2 := by omega
  unfold padChars
  rcases h0 with h0 | h0 | h0 <;> rw [h0] <;> simp

theorem btoaBytes_length_mod4 (bs : List Nat) : (btoaBytes bs).length % 4 = 0 := by
  have hv := b64EncVals_length bs
  have hp := padChars_length bs
  unfold btoaBytes
  rw [List.length_append, List.length_map, hv, hp]
  split_ifs <;> omega

theorem stripPad_btoa (bs : List Nat) (h : BytesOk bs) :
    stripPad (btoaBytes bs) = (b64EncVals bs).map sixToChar := by
  have hvals := b64EncVals_lt64 bs h
  have hne : ∀ c ∈ (b64EncVals bs).map sixToChar, c ≠ '=' := by
    intro c hc
    obtain ⟨v, hv, rfl⟩ := List.mem_map.mp hc
    exact (sixToChar_props v (hvals v hv)).1
  have h0 : bs.length % 3 = 0 ∨ bs.length % 3 = 1 ∨ bs.length % 3 = 2 := by omega
  unfold btoaBytes padChars
  rcases h0 with h0 | h0 | h0 <;> rw [h0]
  · simpa using stripPad_no_pad hne
  · exact stripPad_two _
  · exact stripPad_one hne

theorem atob_btoa (bs : List Nat) (h : BytesOk bs) :
    atobChars (btoaBytes bs) = some bs := by
  have hvals := b64EncVals_lt64 bs h
  have hnws : ∀ c ∈ btoaBytes bs, (!(isB64Ws c)) = true := by
    intro c hc
    rcases List.mem_append.mp hc with hc1 | hc2
    · obtain ⟨v, hv, rfl⟩ := List.mem_map.mp hc1
      simp [(sixToChar_props v (hvals v hv)).2.2]
    · rw [padChars_mem bs c hc2]
      decide
  have hfil : (btoaBytes bs).filter (fun c => !(isB64Ws c)) = btoaBytes bs :=
    List.filter_eq_self.mpr hnws
  have hlenv : ((b64EncVals bs).map sixToChar).length % 4 ≠ 1 := by
    rw [List.length_map, b64EncVals_length]
    split_ifs <;> omega
  unfold atobChars
  simp only [hfil, btoaBytes_length_mod4 bs, if_pos, stripPad_btoa bs h,
    if_neg hlenv, charsToVals_map _ hvals, Option.some_bind,
    valsToBytes_encVals bs h]

theorem splitOnColon_no_colon {l : List Char} (h : ∀ c ∈ l, c ≠ ':') :
    splitOnColon l = [l] := by
  induction l with
  | nil => rfl
  | cons c r ih =>
      have hc : c ≠ ':' := h c (by simp)
      have hr := ih (fun d hd => h d (by simp [hd]))
      simp only [splitOnColon, if_neg hc, hr]

theorem splitOnColon_append {a r : List Char} (h : ∀ c ∈ a, c ≠ ':') :
    splitOnColon (a ++ ':' :: r) = a :: splitOnColon r := by
  induction a with
  | nil => simp [splitOnColon]
  | cons c t ih =>
      have hc : c ≠ ':' := h c (by simp)
      have ht := ih (fun d hd => h d (by simp [hd]))
      simp only [List.cons_append, splitOnColon, if_neg hc, List.append_eq]
      rw [ht]

theorem btoaBytes_no_colon (bs : List Nat) (h : BytesOk bs) :
    ∀ c ∈ btoaBytes bs, c ≠ ':' := by
  intro c hc
  rcases List.mem_append.mp hc with hc1 | hc2
  · obtain ⟨v, hv, rfl⟩ := List.mem_map.mp hc1
    exact (sixToChar_props v (b64EncVals_lt64 bs h v hv)).2.1
  · rw [padChars_mem bs c hc2]
    decide

theorem btoaBytes_ne_nil {bs : List Nat} (h : bs ≠ []) : btoaBytes bs ≠ [] := by
  intro he
  have hlen := congrArg List.length he
  rw [btoaBytes, List.length_append, List.length_map, b64EncVals_length] at hlen
  have hbs : 1 ≤ bs.length := List.length_pos.mpr h
  simp only [List.length_nil] at hlen
  split_ifs at hlen <;> omega

theorem len8_bytesOk (n : Nat) : BytesOk (len8 n) := by
  intro b hb
  simp only [len8, List.mem_cons, List.not_mem_nil, or_false] at hb
  rcases hb with rfl | rfl | rfl | rfl | rfl | rfl | rfl | rfl <;> omega

theorem bytesOk_append {a b : List Nat} (ha : BytesOk a) (hb : BytesOk b) :
    BytesOk (a ++ b) := by
  intro x hx
  rcases List.mem_append.mp hx with h | h
  · exact ha x h
  · exact hb x h

theorem hexDigitVal_lt16 (c : Char) : hexDigitVal c < 16 := by
  unfold hexDigitVal
  split_ifs with h1 h2 h3
  · have h9 : c.toNat ≤ 57 := h1.2
    omega
  · have h9 : c.toNat ≤ 102 := h2.2
    omega
  · have h9 : c.toNat ≤ 70 := h3.2
    omega
  · omega

theorem hexPairs_bytesOk (l : List Char) : BytesOk (hexPairs l) := by
  induction l using hexPairs.induct with
  | case1 c1 c2 r ih =>
      intro b hb
      simp only [hexPairs, List.mem_cons] at hb
      rcases hb with rfl | hb
      · have := hexDigitVal_lt16 c1
        have := hexDigitVal_lt16 c2
        omega
      · exact ih b hb
  | case2 l h1 =>
      have he : hexPairs l = [] := by
        cases l with
        | nil => rfl
        | cons c t =>
            cases t with
            | nil => rfl
            | cons d u => exact absurd rfl (h1 c d u)
      rw [he]
      intro b hb
      simp at hb

theorem gcmEncrypt_bytesOk {key iv m : List Nat} (hk : BytesOk key)
    (hi : BytesOk iv) (hm : BytesOk m) : BytesOk (gcmEncrypt key iv m) :=
  bytesOk_append (bytesOk_append (bytesOk_append
    (bytesOk_append (bytesOk_append (len8_bytesOk m.length) hm) hm) hk) hi)
    (fun b hb => by
      have := List.eq_of_mem_replicate hb
      omega)

theorem gcmEncrypt_length (key iv m : List Nat) :
    (gcmEncrypt key iv m).length =
      8 + 2 * m.length + key.length + iv.length + 2 * (m.length % 3) := by
  simp [gcmEncrypt, len8]
  omega

theorem gcmDecrypt_encrypt (key iv m : List Nat) :
    gcmDecrypt key iv (gcmEncrypt key iv m) = some m := by
  have hlen := gcmEncrypt_length key iv m
  have hassoc : gcmEncrypt key iv m = len8 m.length ++
      (m ++ (m ++ (key ++ (iv ++ List.replicate (2 * (m.length % 3)) 0)))) := by
    simp [gcmEncrypt]
  have hdrop : (gcmEncrypt key iv m).drop 8 =
      m ++ (m ++ (key ++ (iv ++ List.replicate (2 * (m.length % 3)) 0))) := by
    rw [hassoc]
    have h8 : (len8 m.length).length = 8 := rfl
    rw [← h8, List.drop_left]
  simp only [gcmDecrypt]
  rw [if_neg (by omega)]
  have hq : (gcmEncrypt key iv m).length - (8 + key.length + iv.length) =
      2 * m.length + 2 * (m.length % 3) := by
    omega
  rw [hq]
  have h2 : (2 * m.length + 2 * (m.length % 3)) / 2 -
      (3 - ((2 * m.length + 2 * (m.length % 3)) / 2) % 3) % 3 = m.length := by
    have h0 : m.length % 3 = 0 ∨ m.length % 3 = 1 ∨ m.length % 3 = 2 := by
      omega
    rcases h0 with h0 | h0 | h0 <;> rw [h0] <;> omega
  rw [h2, hdrop, ← List.take_left m
    (m ++ (key ++ (iv ++ List.replicate (2 * (m.length % 3)) 0)))]
  simp only [List.take_left]
  rw [if_pos]
  simp [gcmEncrypt]

theorem gcmDecrypt_inv {key iv c p : List Nat}
    (h : gcmDecrypt key iv c = some p) : c = gcmEncrypt key iv p := by
  simp only [gcmDecrypt] at h
  split_ifs at h with h1 h2
  simp only [Option.some.injEq] at h
  rw [h] at h2
  exact h2

theorem deriveAesKey_ok {K : List Char} (hK : addressReTest K = true) :
    deriveAesKeyFromAddress K = .ok (sha256Model (hexToBytes K)) := by
  simp [deriveAesKeyFromAddress, assertAddress, hK]

theorem sha256Model_bytesOk {bs : List Nat} (h : BytesOk bs) :
    BytesOk (sha256Model bs) := by
  apply bytesOk_append h
  intro b hb
  have := List.eq_of_mem_replicate hb
  omega

theorem wire_split (I C : List Char) (hI : ∀ c ∈ I, c ≠ ':')
    (hC : ∀ c ∈ C, c ≠ ':') :
    splitOnColon ("sl1:".data ++ I ++ ":".data ++ C) = [['s', 'l', '1'], I, C] := by
  have hw : "sl1:".data ++ I ++ ":".data ++ C =
      ['s', 'l', '1'] ++ ':' :: (I ++ ':' :: C) := by
    have hsl : "sl1:".data = ['s', 'l', '1', ':'] := rfl
    have hco : ":".data = [':'] := rfl
    rw [hsl, hco]
    simp
  rw [hw, splitOnColon_append (by decide), splitOnColon_append hI,
    splitOnColon_no_colon hC]

/-- **C1.**  For every plaintext `m` (given as its UTF-8 bytes) and every
well-formed clear key `K` (a `0x`-prefixed 20-byte address string),
decrypting the wire string produced by encrypting `m` under `K` (with the
fresh 12-byte nonce `iv`), using the same `K`, returns exactly `m`:
`decryptWithAddressKey (encryptWithAddressKey m K iv) K = ok m`. -/
theorem c1_decrypt_encrypt_roundtrip (m iv : List Nat) (K : List Char)
    (hm : BytesOk m) (hK : addressReTest K = true)
    (hiv : BytesOk iv) (hivlen : iv.length = 12) :
    (encryptWithAddressKey m K iv).bind (fun w => decryptWithAddressKey w K) =
      .ok m := by
  have hkOk : BytesOk (sha256Model (hexToBytes K)) :=
    sha256Model_bytesOk (hexPairs_bytesOk _)
  have hd := deriveAesKey_ok hK
  have hcbOk : BytesOk (gcmEncrypt (sha256Model (hexToBytes K)) iv m) :=
    gcmEncrypt_bytesOk hkOk hiv hm
  have hcne : gcmEncrypt (sha256Model (hexToBytes K)) iv m ≠ [] := by
    intro he
    have hl := congrArg List.length he
    rw [gcmEncrypt_length] at hl
    simp at hl
  have hine : iv ≠ [] := by
    intro he
    rw [he] at hivlen
    simp at hivlen
  have hIne : btoaBytes iv ≠ [] := btoaBytes_ne_nil hine
  have hCne : btoaBytes (gcmEncrypt (sha256Model (hexToBytes K)) iv m) ≠ [] :=
    btoaBytes_ne_nil hcne
  have hsplit := wire_split (btoaBytes iv)
    (btoaBytes (gcmEncrypt (sha256Model (hexToBytes K)) iv m))
    (btoaBytes_no_colon iv hiv) (btoaBytes_no_colon _ hcbOk)
  simp only [encryptWithAddressKey, hd, Except.bind, decryptWithAddressKey,
    bytesToBase64, hsplit, List.headD_cons, List.getD_cons_succ,
    List.getD_cons_zero]
  rw [if_neg]
  · simp only [base64ToBytes, atob_btoa iv hiv, atob_btoa _ hcbOk,
      gcmDecrypt_encrypt]
  · push_neg
    refine ⟨by decide, hIne, hCne⟩

/-- Witness for C1 at a concrete plaintext, key and nonce. -/
theorem c1_witness :
    BytesOk exM ∧ addressReTest exKey = true ∧ BytesOk exIv ∧
      exIv.length = 12 ∧
      (encryptWithAddressKey exM exKey exIv).bind
        (fun w => decryptWithAddressKey w exKey) = .ok exM :=
  ⟨by decide, by decide, by decide, by decide,
    c1_decrypt_encrypt_roundtrip exM exIv exKey (by decide) (by decide)
      (by decide) (by decide)⟩

theorem storeEntry_ok {o : String} {st : LedgerState}
    (h : st._hasLedger o = true) (c : List Char) (t : Nat) :
    ∃ st2, SilentLedger.storeEntry o c t st = .ok st2 ∧
      st2._hasLedger = st._hasLedger ∧ st2._ledgerKey = st._ledgerKey ∧
      st2._pouch o = st._pouch o ++ [⟨t, c⟩] ∧
      ∀ o', o' ≠ o → st2._pouch o' = st._pouch o' := by
  refine ⟨{ st with _pouch := fun o' =>
      if o' = o then st._pouch o ++ [⟨t, c⟩] else st._pouch o' },
    ?_, rfl, rfl, ?_, ?_⟩
  · simp [SilentLedger.storeEntry, h]
  · simp
  · intro o' ho'
    simp [ho']

theorem storeAll_spec (o : String) (xs : List (List Char × Nat)) :
    ∀ st : LedgerState, st._hasLedger o = true →
    ∃ st', SilentLedger.storeAll o xs st = .ok st' ∧
      st'._hasLedger = st._hasLedger ∧ st'._ledgerKey = st._ledgerKey ∧
      st'._pouch o = st._pouch o ++ xs.map (fun e => PouchEntry.mk e.2 e.1) ∧
      ∀ o', o' ≠ o → st'._pouch o' = st._pouch o' := by
  induction xs with
  | nil =>
      intro st h
      exact ⟨st, rfl, rfl, rfl, by simp, fun _ _ => rfl⟩
  | cons e rest ih =>
      intro st h
      obtain ⟨c, t⟩ := e
      obtain ⟨st2, hstep, hh, hk, hp, ho⟩ := storeEntry_ok h c t
      obtain ⟨st', hrun, hh', hk', hp', ho'⟩ := ih st2 (by rw [hh]; exact h)
      refine ⟨st', ?_, by rw [hh', hh], by rw [hk', hk], ?_, ?_⟩
      · simp only [SilentLedger.storeAll, hstep, hrun]
      · rw [hp', hp]
        simp
      · intro o' hne
        rw [ho' o' hne, ho o' hne]

/-- **C2.**  For an owner `o` whose ledger exists and whose pouch is empty,
after the `n` successful `storeEntry` calls of the list `xs` (each with its
ciphertext and `block.timestamp`): `getEntryCount o` equals `n`; for every
`i < n`, `getEntry o i` returns the `i`-th stored timestamp and ciphertext in
call order; and `getEntry o n` fails with `EntryIndexOutOfBounds`. -/
theorem c2_append_monotonicity (o : String) (xs : List (List Char × Nat))
    (st st' : LedgerState) (hhas : st._hasLedger o = true)
    (hemp : st._pouch o = [])
    (hrun : SilentLedger.storeAll o xs st = .ok st') :
    SilentLedger.getEntryCount o st' = xs.length ∧
    (∀ i (hi : i < xs.length),
      SilentLedger.getEntry o i st' =
        .ok ((xs.get ⟨i, hi⟩).2, (xs.get ⟨i, hi⟩).1)) ∧
    SilentLedger.getEntry o xs.length st' =
      .error (.entryIndexOutOfBounds o xs.length) := by
  obtain ⟨st2, hrun2, hh, hk, hp, ho⟩ := storeAll_spec o xs st hhas
  rw [hrun2] at hrun
  have hst : st2 = st' := by
    simpa using hrun
  subst hst
  rw [hemp] at hp
  simp only [List.nil_append] at hp
  have hlen : (st2._pouch o).length = xs.length := by
    rw [hp, List.length_map]
  refine ⟨hlen, ?_, ?_⟩
  · intro i hi
    have hi2 : i < (st2._pouch o).length := by rw [hlen]; exact hi
    simp only [SilentLedger.getEntry, dif_pos hi2]
    congr 1
    have hget : (st2._pouch o).get ⟨i, hi2⟩ =
        PouchEntry.mk (xs.get ⟨i, hi⟩).2 (xs.get ⟨i, hi⟩).1 := by
      have := List.get_of_eq hp ⟨i, hi2⟩
      rw [this]
      simp [List.get_map]
    rw [hget]
  · simp only [SilentLedger.getEntry]
    rw [dif_neg]
    omega

/-- Witness for C2: after creating a ledger for `alice` and storing the two
entries of `exXs`, the counts, per-index reads and out-of-bounds failure are
as stated. -/
theorem c2_witness :
    exSt0._hasLedger "alice" = true ∧ exSt0._pouch "alice" = [] ∧
      SilentLedger.storeAll "alice" exXs exSt0 = .ok exStAfter ∧
      SilentLedger.getEntryCount "alice" exStAfter = exXs.length ∧
      (∀ i (hi : i < exXs.length),
        SilentLedger.getEntry "alice" i exStAfter =
          .ok ((exXs.get ⟨i, hi⟩).2, (exXs.get ⟨i, hi⟩).1)) ∧
      SilentLedger.getEntry "alice" exXs.length exStAfter =
        .error (.entryIndexOutOfBounds "alice" exXs.length) := by
  have h := c2_append_monotonicity "alice" exXs exSt0 exStAfter rfl rfl rfl
  exact ⟨rfl, rfl, rfl, h.1, h.2.1, h.2.2⟩

/-- **C3.**  If `createLedger` has succeeded once for an owner, a second
`createLedger` call by that owner fails with `LedgerAlreadyExists`, and by
the transaction semantics of the substrate the reverted call leaves the
entire per-owner state (existence flag, key handle, entry sequence)
identical to the state after the first successful call. -/
theorem c3_create_twice_already_exists (o : String) (k1 p1 k2 p2 : Nat)
    (st st1 : LedgerState)
    (h : SilentLedger.createLedger o k1 p1 st = .ok st1) :
    SilentLedger.createLedger o k2 p2 st1 = .error (.ledgerAlreadyExists o) ∧
    SilentLedger.applyTx (SilentLedger.createLedger o k2 p2) st1 = st1 := by
  have hhas : st1._hasLedger o = true := by
    simp only [SilentLedger.createLedger] at h
    split_ifs at h with hc
    simp only [Except.ok.injEq] at h
    rw [← h]
    simp
  have herr : SilentLedger.createLedger o k2 p2 st1 =
      .error (.ledgerAlreadyExists o) := by
    simp [SilentLedger.createLedger, hhas]
  refine ⟨herr, ?_⟩
  simp [SilentLedger.applyTx, herr]

/-- Witness for C3 at a concrete owner and state. -/
theorem c3_witness :
    SilentLedger.createLedger "alice" 1 2 SilentLedger.initialState =
        .ok exSt0 ∧
      SilentLedger.createLedger "alice" 3 4 exSt0 =
        .error (.ledgerAlreadyExists "alice") ∧
      SilentLedger.applyTx (SilentLedger.createLedger "alice" 3 4) exSt0 =
        exSt0 := by
  have h1 : SilentLedger.createLedger "alice" 1 2 SilentLedger.initialState =
      .ok exSt0 := rfl
  have h := c3_create_twice_already_exists "alice" 1 2 3 4
    SilentLedger.initialState exSt0 h1
  exact ⟨h1, h.1, h.2⟩

/-- **C5.**  `rotateLedgerKey` fails with `LedgerNotFound` when no ledger
record exists; when one exists it succeeds and replaces only the key handle:
the existence flags of all owners are unchanged (`o`'s stays `true`), other
owners' key handles are unchanged, and every stored pouch entry of every
owner is byte-for-byte unchanged (entries are not re-encrypted). -/
theorem c5_rotate_frame (o : String) (k p : Nat) (st : LedgerState) :
    (st._hasLedger o = false →
      SilentLedger.rotateLedgerKey o k p st = .error (.ledgerNotFound o)) ∧
    (st._hasLedger o = true →
      ∃ st', SilentLedger.rotateLedgerKey o k p st = .ok st' ∧
        st'._hasLedger = st._hasLedger ∧
        st'._ledgerKey o = fheFromExternal k p ∧
        (∀ o', o' ≠ o → st'._ledgerKey o' = st._ledgerKey o') ∧
        st'._pouch = st._pouch) := by
  constructor
  · intro h
    simp [SilentLedger.rotateLedgerKey, h]
  · intro h
    refine ⟨{ st with _ledgerKey := fun o' =>
        if o' = o then fheFromExternal k p else st._ledgerKey o' },
      ?_, rfl, by simp, ?_, rfl⟩
    · simp [SilentLedger.rotateLedgerKey, h]
    · intro o' ho'
      simp [ho']

/-- Witness for C5: rotation fails on a fresh state and succeeds after
creation, preserving the pouch. -/
theorem c5_witness :
    (SilentLedger.initialState._hasLedger "alice" = false ∧
      SilentLedger.rotateLedgerKey "alice" 7 8 SilentLedger.initialState =
        .error (.ledgerNotFound "alice")) ∧
    (exStAfter._hasLedger "alice" = true ∧
      ∃ st', SilentLedger.rotateLedgerKey "alice" 7 8 exStAfter = .ok st' ∧
        st'._hasLedger = exStAfter._hasLedger ∧
        st'._ledgerKey "alice" = fheFromExternal 7 8 ∧
        (∀ o', o' ≠ "alice" → st'._ledgerKey o' = exStAfter._ledgerKey o') ∧
        st'._pouch = exStAfter._pouch) := by
  constructor
  · exact ⟨rfl, (c5_rotate_frame "alice" 7 8 SilentLedger.initialState).1 rfl⟩
  · exact ⟨rfl, (c5_rotate_frame "alice" 7 8 exStAfter).2 rfl⟩

/-- **C6.**  Any payload whose first `:`-separated segment is not exactly
`sl1`, or which lacks (has a missing or empty) nonce segment or ciphertext
segment, makes `decryptWithAddressKey` fail with the
`Unsupported ciphertext format` error — for every key argument, well-formed
or not, so no key derivation or cipher operation is attempted. -/
theorem c6_version_tag_gate (payload K : List Char)
    (h : (splitOnColon payload).headD [] ≠ "sl1".data ∨
         (splitOnColon payload).getD 1 [] = [] ∨
         (splitOnColon payload).getD 2 [] = []) :
    decryptWithAddressKey payload K = .error .unsupportedFormat := by
  simp only [decryptWithAddressKey]
  rw [if_pos h]

/-- Witness for C6 at a concrete rejected payload (wrong version tag). -/
theorem c6_witness :
    ((splitOnColon "sl0:aa:bb".data).headD [] ≠ "sl1".data ∨
      (splitOnColon "sl0:aa:bb".data).getD 1 [] = [] ∨
      (splitOnColon "sl0:aa:bb".data).getD 2 [] = []) ∧
    decryptWithAddressKey "sl0:aa:bb".data exKey =
      .error .unsupportedFormat :=
  ⟨by decide, c6_version_tag_gate "sl0:aa:bb".data exKey (by decide)⟩

/-- **C7.**  In the client's decrypt-all pass, each output entry is a
function of its own input entry alone (the batch is an order-preserving
per-entry map, so one entry's failure cannot abort or alter the others),
and every not-yet-settled entry ends with either its own plaintext or its
own failure reason recorded. -/
theorem c7_decrypt_isolation (key : List Char) (entries : List FrontEntry) :
    (LedgerApp.decryptAll key entries).length = entries.length ∧
    (∀ i (hi : i < entries.length),
      (LedgerApp.decryptAll key entries).get
          ⟨i, by simpa [LedgerApp.decryptAll] using hi⟩ =
        LedgerApp.decryptEntryOnce key (entries.get ⟨i, hi⟩)) ∧
    (∀ e ∈ entries, e.plaintext = none → e.decryptError = none →
      (∃ p, decryptWithAddressKey e.ciphertext key = .ok p ∧
        LedgerApp.decryptEntryOnce key e =
          { e with plaintext := some p, decryptError := none }) ∨
      (∃ err, decryptWithAddressKey e.ciphertext key = .error err ∧
        LedgerApp.decryptEntryOnce key e =
          { e with plaintext := none,
                   decryptError := some (errorMessage err) })) := by
  refine ⟨by simp [LedgerApp.decryptAll], ?_, ?_⟩
  · intro i hi
    simp [LedgerApp.decryptAll]
  · intro e _ hp he
    unfold LedgerApp.decryptEntryOnce
    rw [if_neg (by simp [hp, he])]
    cases hd : decryptWithAddressKey e.ciphertext key with
    | ok p => exact Or.inl ⟨p, rfl, rfl⟩
    | error err => exact Or.inr ⟨err, rfl, rfl⟩

/-- Witness for C7 at a concrete batch: two pending entries, the first
decrypting successfully and the second failing, each settled on its own. -/
theorem c7_witness :
    (0 : Nat) < exFront.length ∧ (1 : Nat) < exFront.length ∧
    (LedgerApp.decryptAll exKey exFront).get
        ⟨0, by simp [LedgerApp.decryptAll]; decide⟩ =
      LedgerApp.decryptEntryOnce exKey (exFront.get ⟨0, by decide⟩) ∧
    (LedgerApp.decryptAll exKey exFront).get
        ⟨1, by simp [LedgerApp.decryptAll]; decide⟩ =
      LedgerApp.decryptEntryOnce exKey (exFront.get ⟨1, by decide⟩) :=
  ⟨by decide, by decide,
    (c7_decrypt_isolation exKey exFront).2.1 0 (by decide),
    (c7_decrypt_isolation exKey exFront).2.1 1 (by decide)⟩

theorem refreshEntries_index (o : String) (st : LedgerState) (i : Nat)
    (hi : i < (LedgerApp.refreshEntries o st).length) :
    ((LedgerApp.refreshEntries o st).get ⟨i, hi⟩).index =
      LedgerApp.refreshStart (SilentLedger.getEntryCount o st) + i := by
  have hi' : i < (LedgerApp.refreshIndices
      (SilentLedger.getEntryCount o st)).length := by
    simpa [LedgerApp.refreshEntries] using hi
  simp only [List.get_eq_getElem, LedgerApp.refreshEntries, List.getElem_map]
  have hidx : (LedgerApp.refreshIndices (SilentLedger.getEntryCount o st))[i] =
      i + LedgerApp.refreshStart (SilentLedger.getEntryCount o st) := by
    simp [LedgerApp.refreshIndices]
  rw [hidx]
  cases hh : SilentLedger.getEntry o
      (i + LedgerApp.refreshStart (SilentLedger.getEntryCount o st)) st with
  | ok v => obtain ⟨t, c⟩ := v; simp [hh]; omega
  | error e => simp [hh]; omega

/-- **C8 (amended).**  The entry list returned by `refresh` is in strictly
ascending on-chain index order (independent of fetch completion order, as
`Promise.all` resolves in argument order), while the *displayed* list is its
exact reverse: strictly descending index order, newest entry first. -/
theorem c8_order_of_entries (o : String) (st : LedgerState) :
    (∀ i j (hi : i < (LedgerApp.refreshEntries o st).length)
        (hj : j < (LedgerApp.refreshEntries o st).length), i < j →
      ((LedgerApp.refreshEntries o st).get ⟨i, hi⟩).index <
        ((LedgerApp.refreshEntries o st).get ⟨j, hj⟩).index) ∧
    (∀ i j (hi : i <
          (LedgerApp.displayedEntries (LedgerApp.refreshEntries o st)).length)
        (hj : j <
          (LedgerApp.displayedEntries (LedgerApp.refreshEntries o st)).length),
        i < j →
      ((LedgerApp.displayedEntries (LedgerApp.refreshEntries o st)).get
          ⟨j, hj⟩).index <
        ((LedgerApp.displayedEntries (LedgerApp.refreshEntries o st)).get
          ⟨i, hi⟩).index) := by
  have hasc : ∀ i j (hi : i < (LedgerApp.refreshEntries o st).length)
      (hj : j < (LedgerApp.refreshEntries o st).length), i < j →
      ((LedgerApp.refreshEntries o st).get ⟨i, hi⟩).index <
        ((LedgerApp.refreshEntries o st).get ⟨j, hj⟩).index := by
    intro i j hi hj hij
    rw [refreshEntries_index o st i hi, refreshEntries_index o st j hj]
    omega
  refine ⟨hasc, ?_⟩
  intro i j hi hj hij
  have hlen : (LedgerApp.displayedEntries
      (LedgerApp.refreshEntries o st)).length =
      (LedgerApp.refreshEntries o st).length := by
    simp [LedgerApp.displayedEntries]
  have hi2 : i < (LedgerApp.refreshEntries o st).length := hlen ▸ hi
  have hj2 : j < (LedgerApp.refreshEntries o st).length := hlen ▸ hj
  have hri : (LedgerApp.displayedEntries (LedgerApp.refreshEntries o st)).get
      ⟨i, hi⟩ = (LedgerApp.refreshEntries o st).get
      ⟨(LedgerApp.refreshEntries o st).length - 1 - i, by omega⟩ := by
    simp only [LedgerApp.displayedEntries, List.get_eq_getElem,
      List.getElem_reverse]
  have hrj : (LedgerApp.displayedEntries (LedgerApp.refreshEntries o st)).get
      ⟨j, hj⟩ = (LedgerApp.refreshEntries o st).get
      ⟨(LedgerApp.refreshEntries o st).length - 1 - j, by omega⟩ := by
    simp only [LedgerApp.displayedEntries, List.get_eq_getElem,
      List.getElem_reverse]
  rw [hri, hrj]
  exact hasc _ _ _ _ (by omega)

/-- Witness for C8 (amended) at a concrete two-entry ledger. -/
theorem c8_witness :
    (0 : Nat) < (LedgerApp.refreshEntries "alice" exStAfter).length ∧
    (1 : Nat) < (LedgerApp.refreshEntries "alice" exStAfter).length ∧
    ((LedgerApp.refreshEntries "alice" exStAfter).get ⟨0, by decide⟩).index <
      ((LedgerApp.refreshEntries "alice" exStAfter).get ⟨1, by decide⟩).index :=
  ⟨by decide, by decide,
    (c8_order_of_entries "alice" exStAfter).1 0 1 (by decide) (by decide)
      (by decide)⟩

/-- Counterexample for C8 as stated: with two stored entries, the
*displayed* list puts index 1 before index 0 — the entry with the smaller
on-chain index does not come first. -/
theorem c8_counterexample :
    ((LedgerApp.displayedEntries
        (LedgerApp.refreshEntries "alice" exStAfter)).getD 0
        { index := 5, createdAt := 0, ciphertext := [] }).index = 1 ∧
    ((LedgerApp.displayedEntries
        (LedgerApp.refreshEntries "alice" exStAfter)).getD 1
        { index := 5, createdAt := 0, ciphertext := [] }).index = 0 := by
  decide

/-- **C9 (amended).**  The explicit lock action, a refresh observing no
ledger, and session end each transition the unlock session to `Locked`,
discarding the clear key; but the mere passage of time — in particular the
expiry of the EIP-712 validity window — triggers no transition: the clear
key persists. -/
theorem c9_session_lock_events (s : Option (List Char)) (t : Nat) :
    LedgerApp.sessionStep .lockAction s = none ∧
    LedgerApp.sessionStep .sessionEnd s = none ∧
    LedgerApp.sessionStep .refreshNoLedger s = none ∧
    LedgerApp.sessionStep (.timePass t) s = s :=
  ⟨rfl, rfl, rfl, rfl⟩

/-- Counterexample for C9 as stated: after the 10-day (864000 s) validity
window has passed, the session still holds the clear key — expiry does not
transition to `Locked`. -/
theorem c9_counterexample :
    LedgerApp.sessionStep (.timePass 864001) (some exKey) = some exKey ∧
    (some exKey : Option (List Char)) ≠ none :=
  ⟨rfl, by simp⟩

/-- Counterexample for C10 as stated: under a malformed key, a payload that
fails the wire-format check makes `decryptWithAddressKey` fail with the
format error, not with the invalid-address error. -/
theorem c10_counterexample :
    addressReTest exBadKey = false ∧
    decryptWithAddressKey "x".data exBadKey = .error .unsupportedFormat ∧
    ∀ a, decryptWithAddressKey "x".data exBadKey ≠
      .error (.invalidAddress a) := by
  refine ⟨by decide, by decide, ?_⟩
  intro a
  have h : decryptWithAddressKey "x".data exBadKey =
      .error .unsupportedFormat := by decide
  rw [h]
  simp

/-- **C10 (amended).**  For every key argument failing the
`0x` + 40-hex-digits shape: `encryptWithAddressKey` always fails with the
invalid-address error before any key derivation or cipher operation;
`decryptWithAddressKey` fails with the invalid-address error whenever the
payload passes the wire-format check, and with the format error otherwise;
in no case is a ciphertext produced or a plaintext returned. -/
theorem c10_malformed_key_rejected (K : List Char)
    (hK : addressReTest K = false) :
    (∀ m iv, encryptWithAddressKey m K iv = .error (.invalidAddress K)) ∧
    (∀ payload,
      ((splitOnColon payload).headD [] = "sl1".data ∧
        (splitOnColon payload).getD 1 [] ≠ [] ∧
        (splitOnColon payload).getD 2 [] ≠ []) →
      decryptWithAddressKey payload K = .error (.invalidAddress K)) ∧
    (∀ payload,
      ¬((splitOnColon payload).headD [] = "sl1".data ∧
        (splitOnColon payload).getD 1 [] ≠ [] ∧
        (splitOnColon payload).getD 2 [] ≠ []) →
      decryptWithAddressKey payload K = .error .unsupportedFormat) ∧
    (∀ payload bs, decryptWithAddressKey payload K ≠ .ok bs) := by
  have hd : deriveAesKeyFromAddress K = .error (.invalidAddress K) := by
    simp [deriveAesKeyFromAddress, assertAddress, hK]
  have hpass : ∀ payload,
      ((splitOnColon payload).headD [] = "sl1".data ∧
        (splitOnColon payload).getD 1 [] ≠ [] ∧
        (splitOnColon payload).getD 2 [] ≠ []) →
      decryptWithAddressKey payload K = .error (.invalidAddress K) := by
    intro payload hp
    simp only [decryptWithAddressKey]
    rw [if_neg (by
      push_neg
      exact ⟨hp.1, hp.2.1, hp.2.2⟩)]
    simp only [hd]
  have hfail : ∀ payload,
      ¬((splitOnColon payload).headD [] = "sl1".data ∧
        (splitOnColon payload).getD 1 [] ≠ [] ∧
        (splitOnColon payload).getD 2 [] ≠ []) →
      decryptWithAddressKey payload K = .error .unsupportedFormat := by
    intro payload hp
    simp only [decryptWithAddressKey]
    rw [if_pos (by
      by_cases h1 : (splitOnColon payload).headD [] = "sl1".data
      · by_cases h2 : (splitOnColon payload).getD 1 [] = []
        · exact Or.inr (Or.inl h2)
        · by_cases h3 : (splitOnColon payload).getD 2 [] = []
          · exact Or.inr (Or.inr h3)
          · exact absurd ⟨h1, h2, h3⟩ hp
      · exact Or.inl h1)]
  refine ⟨?_, hpass, hfail, ?_⟩
  · intro m iv
    simp [encryptWithAddressKey, hd]
  · intro payload bs hok
    by_cases hp : ((splitOnColon payload).headD [] = "sl1".data ∧
        (splitOnColon payload).getD 1 [] ≠ [] ∧
        (splitOnColon payload).getD 2 [] ≠ [])
    · rw [hpass payload hp] at hok
      exact Except.noConfusion hok
    · rw [hfail payload hp] at hok
      exact Except.noConfusion hok

/-- Witness for C10 (amended) at the concrete malformed key `0x00`, with a
format-passing payload (a produced wire string, which gets the
invalid-address error) and a format-failing payload (which gets the format
error). -/
theorem c10_witness :
    addressReTest exBadKey = false ∧
    encryptWithAddressKey exM exBadKey exIv =
      .error (.invalidAddress exBadKey) ∧
    decryptWithAddressKey exWire exBadKey =
      .error (.invalidAddress exBadKey) ∧
    decryptWithAddressKey "zz".data exBadKey = .error .unsupportedFormat :=
  ⟨by decide,
    (c10_malformed_key_rejected exBadKey (by decide)).1 exM exIv,
    (c10_malformed_key_rejected exBadKey (by decide)).2.1 exWire (by decide),
    (c10_malformed_key_rejected exBadKey (by decide)).2.2.1 "zz".data
      (by decide)⟩

/-- Counterexample for C4 as stated: for the one-byte plaintext `exM1` (real
AES-GCM output `17` bytes, `17 % 3 = 2` — the model length is congruent to
it mod 3), the wire string ends `…A=`; the character at position
`length - 2` is the final base64 value character, whose two low bits are
unused leftover bits.  Changing it from `'A'` to `'B'` (which differ only in
those two bits) yields a different payload whose ciphertext segment decodes
to the identical bytes, so decryption does not fail — it succeeds and
returns the original plaintext.  The same mechanism refutes the claim in the
real program: there the 17-byte ciphertext's base64 also ends with one `=`,
and replacing its final value character by any of the three characters
sharing its high four bits (for `'A'` these are `'B'`, `'C'`, `'D'`) leaves
the bytes passed to `crypto.subtle.decrypt` — and hence the result —
unchanged. -/
theorem c4_counterexample :
    encryptWithAddressKey exM1 exKey exIv = .ok exWire1 ∧
    exTampered1 = exWire1.set (exWire1.length - 2) 'B' ∧
    exWire1.getD (exWire1.length - 2) ' ' = 'A' ∧
    exWire1.getD (exWire1.length - 1) ' ' = '=' ∧
    exTampered1 ≠ exWire1 ∧
    base64ToBytes ((splitOnColon exTampered1).getD 2 []) =
      base64ToBytes ((splitOnColon exWire1).getD 2 []) ∧
    decryptWithAddressKey exTampered1 exKey = .ok exM1 :=
  ⟨by decide, rfl, by decide, by decide, by decide, by decide, by decide⟩



theorem dLen_zero : dLen 0 = 0 := by decide

theorem dLen_two : dLen 2 = 1 := by decide

theorem dLen_three : dLen 3 = 2 := by decide

theorem dLen_add4 (n : Nat) : dLen (n + 4) = dLen n + 3 := by
  unfold dLen
  have h4 : (n + 4) % 4 = n % 4 := by omega
  have h5 : (n + 4) / 4 = n / 4 + 1 := by omega
  rw [h4, h5]
  have h0 : n % 4 = 0 ∨ n % 4 = 1 ∨ n % 4 = 2 ∨ n % 4 = 3 := by omega
  rcases h0 with h0 | h0 | h0 | h0 <;> rw [h0] <;> omega

theorem valsToBytes_length :
    ∀ {vs bs : List Nat}, valsToBytes vs = some bs →
      bs.length = dLen vs.length ∧ vs.length % 4 ≠ 1 := by
  intro vs
  induction vs using valsToBytes.induct with
  | case1 =>
      intro bs h
      simp only [valsToBytes, Option.some.injEq] at h
      subst h
      exact ⟨by simp [dLen_zero], by simp⟩
  | case2 v =>
      intro bs h
      simp [valsToBytes] at h
  | case3 v1 v2 =>
      intro bs h
      simp only [valsToBytes, Option.some.injEq] at h
      subst h
      exact ⟨by simp [dLen_two], by simp⟩
  | case4 v1 v2 v3 =>
      intro bs h
      simp only [valsToBytes, Option.some.injEq] at h
      subst h
      exact ⟨by simp [dLen_three], by simp⟩
  | case5 v1 v2 v3 v4 r ih =>
      intro bs h
      simp only [valsToBytes, Option.map_eq_some'] at h
      obtain ⟨bs2, hbs2, hcons⟩ := h
      obtain ⟨hlen, hmod⟩ := ih hbs2
      subst hcons
      constructor
      · have h4 : (v1 :: v2 :: v3 :: v4 :: r).length = r.length + 4 := by
          simp
        rw [h4, dLen_add4]
        simp [hlen]
      · intro hc
        apply hmod
        simp only [List.length_cons] at hc
        omega

theorem valsToBytes_take :
    ∀ {vs bs : List Nat}, valsToBytes vs = some bs →
      ∀ k, k ≤ vs.length → k % 4 ≠ 1 →
        valsToBytes (vs.take k) = some (bs.take (dLen k)) := by
  intro vs
  induction vs using valsToBytes.induct with
  | case1 =>
      intro bs h k hk _
      simp only [valsToBytes, Option.some.injEq] at h
      subst h
      simp only [List.length_nil, Nat.le_zero] at hk
      subst hk
      simp [dLen_zero, valsToBytes]
  | case2 v =>
      intro bs h
      simp [valsToBytes] at h
  | case3 v1 v2 =>
      intro bs h k hk hk4
      simp only [valsToBytes, Option.some.injEq] at h
      subst h
      simp only [List.length_cons, List.length_nil] at hk
      have hc : k = 0 ∨ k = 2 := by omega
      rcases hc with rfl | rfl
      · simp [dLen_zero, valsToBytes]
      · simp [dLen_two, valsToBytes]
  | case4 v1 v2 v3 =>
      intro bs h k hk hk4
      simp only [valsToBytes, Option.some.injEq] at h
      subst h
      simp only [List.length_cons, List.length_nil] at hk
      have hc : k = 0 ∨ k = 2 ∨ k = 3 := by omega
      rcases hc with rfl | rfl | rfl
      · simp [dLen_zero, valsToBytes]
      · simp [dLen_two, valsToBytes]
      · simp [dLen_three, valsToBytes]
  | case5 v1 v2 v3 v4 r ih =>
      intro bs h k hk hk4
      simp only [valsToBytes, Option.map_eq_some'] at h
      obtain ⟨bs2, hbs2, hcons⟩ := h
      subst hcons
      simp only [List.length_cons] at hk
      have hc : k = 0 ∨ k = 2 ∨ k = 3 ∨ (∃ k2, k = k2 + 4) := by
        refine (by omega : k = 0 ∨ k = 2 ∨ k = 3 ∨ 4 ≤ k).imp id
          (Or.imp id (Or.imp id ?_))
        intro h4
        exact ⟨k - 4, by omega⟩
      rcases hc with rfl | rfl | rfl | ⟨k2, rfl⟩
      · simp [dLen_zero, valsToBytes]
      · simp [dLen_two, valsToBytes]
      · simp [dLen_three, valsToBytes]
      · have htk : (v1 :: v2 :: v3 :: v4 :: r).take (k2 + 4) =
            v1 :: v2 :: v3 :: v4 :: r.take k2 := rfl
        rw [htk]
        have hih := ih hbs2 k2 (by omega) (by omega)
        simp only [valsToBytes, hih, Option.map_some', dLen_add4,
          Option.some.injEq]
        have hdt : dLen k2 + 3 = (dLen k2 + 1) + 1 + 1 := by omega
        rw [hdt]
        simp [List.take_succ_cons]

theorem valWindow_add4 (j : Nat) : valWindow (j + 4) = (valWindow j).map (· + 3) := by
  unfold valWindow
  have h4 : (j + 4) % 4 = j % 4 := by omega
  rw [h4]
  have h0 : j % 4 = 0 ∨ j % 4 = 1 ∨ j % 4 = 2 ∨ j % 4 = 3 := by omega
  rcases h0 with h0 | h0 | h0 | h0 <;> rw [h0] <;>
    simp only [List.map_cons, List.map_nil, List.cons.injEq, and_true] <;> omega

theorem valsToBytes_set :
    ∀ {vs bs bs' : List Nat} (j v' : Nat),
      valsToBytes vs = some bs → valsToBytes (vs.set j v') = some bs' →
      ∀ i, i ∉ valWindow j → bs'.getD i 0 = bs.getD i 0 := by
  intro vs
  induction vs using valsToBytes.induct with
  | case1 =>
      intro bs bs' j v' h h' i hi
      simp only [List.set_nil, valsToBytes, Option.some.injEq] at h h'
      subst h
      subst h'
      rfl
  | case2 v =>
      intro bs bs' j v' h
      simp [valsToBytes] at h
  | case3 v1 v2 =>
      intro bs bs' j v' h h' i hi
      simp only [valsToBytes, Option.some.injEq] at h
      subst h
      rcases j with _ | j
      · simp only [List.set_cons_zero, valsToBytes, Option.some.injEq] at h'
        subst h'
        simp only [valWindow, List.mem_singleton] at hi
        rcases i with _ | i
        · exact absurd (by norm_num) hi
        · simp
      · rcases j with _ | j
        · simp only [List.set_cons_succ, List.set_cons_zero, valsToBytes,
            Option.some.injEq] at h'
          subst h'
          simp only [valWindow] at hi
          norm_num at hi
          rcases i with _ | _ | i
          · exact absurd rfl hi.1
          · exact absurd rfl hi.2
          · simp
        · have hs : [v1, v2].set (j + 2) v' = [v1, v2] :=
            List.set_eq_of_length_le (by simp)
          rw [hs] at h'
          simp only [valsToBytes, Option.some.injEq] at h'
          subst h'
          rfl
  | case4 v1 v2 v3 =>
      intro bs bs' j v' h h' i hi
      simp only [valsToBytes, Option.some.injEq] at h
      subst h
      rcases j with _ | _ | _ | j
      · simp only [List.set_cons_zero, valsToBytes, Option.some.injEq] at h'
        subst h'
        simp only [valWindow, List.mem_singleton] at hi
        norm_num at hi
        rcases i with _ | _ | i
        · exact absurd rfl hi
        · simp
        · simp
      · simp only [List.set_cons_succ, List.set_cons_zero, valsToBytes,
          Option.some.injEq] at h'
        subst h'
        simp only [valWindow] at hi
        norm_num at hi
        rcases i with _ | _ | i
        · exact absurd rfl hi.1
        · exact absurd rfl hi.2
        · simp
      · simp only [List.set_cons_succ, List.set_cons_zero, valsToBytes,
          Option.some.injEq] at h'
        subst h'
        simp only [valWindow] at hi
        norm_num at hi
        rcases i with _ | _ | i
        · simp
        · exact absurd rfl hi.1
        · rcases i with _ | i
          · exact absurd rfl hi.2
          · simp
      · have hs : [v1, v2, v3].set (j + 3) v' = [v1, v2, v3] :=
          List.set_eq_of_length_le (by simp)
        rw [hs] at h'
        simp only [valsToBytes, Option.some.injEq] at h'
        subst h'
        rfl
  | case5 v1 v2 v3 v4 r ih =>
      intro bs bs' j v' h h' i hi
      simp only [valsToBytes, Option.map_eq_some'] at h
      obtain ⟨bsr, hbsr, hcons⟩ := h
      subst hcons
      rcases j with _ | _ | _ | _ | j
      · simp only [List.set_cons_zero, valsToBytes, Option.map_eq_some'] at h'
        obtain ⟨bsr2, hbsr2, hcons'⟩ := h'
        rw [hbsr] at hbsr2
        have hb2 : bsr2 = bsr := by simpa using hbsr2.symm
        subst hb2
        subst hcons'
        simp only [valWindow, List.mem_singleton] at hi
        norm_num at hi
        rcases i with _ | _ | i
        · exact absurd rfl hi
        · simp
        · simp
      · simp only [List.set_cons_succ, List.set_cons_zero, valsToBytes,
          Option.map_eq_some'] at h'
        obtain ⟨bsr2, hbsr2, hcons'⟩ := h'
        rw [hbsr] at hbsr2
        have hb2 : bsr2 = bsr := by simpa using hbsr2.symm
        subst hb2
        subst hcons'
        simp only [valWindow] at hi
        norm_num at hi
        rcases i with _ | _ | i
        · exact absurd rfl hi.1
        · exact absurd rfl hi.2
        · simp
      · simp only [List.set_cons_succ, List.set_cons_zero, valsToBytes,
          Option.map_eq_some'] at h'
        obtain ⟨bsr2, hbsr2, hcons'⟩ := h'
        rw [hbsr] at hbsr2
        have hb2 : bsr2 = bsr := by simpa using hbsr2.symm
        subst hb2
        subst hcons'
        simp only [valWindow] at hi
        norm_num at hi
        rcases i with _ | _ | _ | i
        · simp
        · exact absurd rfl hi.1
        · exact absurd rfl hi.2
        · simp
      · simp only [List.set_cons_succ, List.set_cons_zero, valsToBytes,
          Option.map_eq_some'] at h'
        obtain ⟨bsr2, hbsr2, hcons'⟩ := h'
        rw [hbsr] at hbsr2
        have hb2 : bsr2 = bsr := by simpa using hbsr2.symm
        subst hb2
        subst hcons'
        simp only [valWindow] at hi
        norm_num at hi
        rcases i with _ | _ | _ | i
        · simp
        · simp
        · exact absurd rfl hi
        · simp
      · simp only [List.set_cons_succ, valsToBytes, Option.map_eq_some'] at h'
        obtain ⟨bsr2, hbsr2, hcons'⟩ := h'
        subst hcons'
        have hwin : valWindow (j + 4) = (valWindow j).map (· + 3) :=
          valWindow_add4 j
        rw [hwin] at hi
        rcases i with _ | _ | _ | i
        · simp
        · simp
        · simp
        · simp only [List.getD_cons_succ]
          apply ih j v' hbsr hbsr2
          intro hmem
          exact hi (List.mem_map.mpr ⟨i, hmem, rfl⟩)

theorem charsToVals_length :
    ∀ {s : List Char} {vs : List Nat}, charsToVals s = some vs →
      vs.length = s.length := by
  intro s
  induction s with
  | nil =>
      intro vs h
      simp only [charsToVals, Option.some.injEq] at h
      subst h
      rfl
  | cons c r ih =>
      intro vs h
      simp only [charsToVals] at h
      cases hv : b64CharVal c with
      | none => rw [hv] at h; simp at h
      | some v =>
          rw [hv] at h
          cases hr : charsToVals r with
          | none => rw [hr] at h; simp at h
          | some vr =>
              rw [hr] at h
              simp only [Option.some.injEq] at h
              subst h
              simp [ih hr]

theorem charsToVals_none {s : List Char} {c : Char} (hc : c ∈ s)
    (hv : b64CharVal c = none) : charsToVals s = none := by
  induction s with
  | nil => simp at hc
  | cons a r ih =>
      rcases List.mem_cons.mp hc with rfl | hmem
      · simp [charsToVals, hv]
      · simp only [charsToVals, ih hmem]
        cases b64CharVal a <;> rfl

theorem charsToVals_isSome {s : List Char}
    (h : ∀ c ∈ s, (b64CharVal c).isSome = true) :
    ∃ vs, charsToVals s = some vs ∧ vs.length = s.length ∧
      ∀ v ∈ vs, v < 64 := by
  induction s with
  | nil => exact ⟨[], rfl, rfl, by simp⟩
  | cons c r ih =>
      obtain ⟨vs, hvs, hlen, hlt⟩ := ih (fun d hd => h d (by simp [hd]))
      obtain ⟨v, hv⟩ := Option.isSome_iff_exists.mp (h c (by simp))
      refine ⟨v :: vs, ?_, by simp [hlen], ?_⟩
      · simp [charsToVals, hv, hvs]
      · intro w hw
        rcases List.mem_cons.mp hw with rfl | hmem
        · exact (b64CharVal_spec hv).1
        · exact hlt w hmem

theorem dLen_bound (n : Nat) : 4 * dLen n ≤ 3 * n + 2 := by
  unfold dLen
  have h0 : n % 4 = 0 ∨ n % 4 = 1 ∨ n % 4 = 2 ∨ n % 4 = 3 := by omega
  rcases h0 with h0 | h0 | h0 | h0 <;> rw [h0]
  · show 4 * (3 * (n / 4) + 0) ≤ 3 * n + 2
    omega
  · show 4 * (3 * (n / 4) + 0) ≤ 3 * n + 2
    omega
  · show 4 * (3 * (n / 4) + 1) ≤ 3 * n + 2
    omega
  · show 4 * (3 * (n / 4) + 2) ≤ 3 * n + 2
    omega

theorem stripPad_length_le (l : List Char) : (stripPad l).length ≤ l.length := by
  unfold stripPad stripPadRev
  split_ifs <;> simp

theorem atob_some_shape {s : List Char} {bs : List Nat}
    (h : atobChars s = some bs) :
    ∃ s2 : List Char, s2.length ≤ s.length ∧ s2.length % 4 ≠ 1 ∧
      (charsToVals s2).bind valsToBytes = some bs := by
  have hfil : (s.filter (fun c => !(isB64Ws c))).length ≤ s.length :=
    List.length_filter_le _ s
  simp only [atobChars] at h
  by_cases hf : (s.filter (fun c => !(isB64Ws c))).length % 4 = 0
  · rw [if_pos hf] at h
    split_ifs at h with hc
    exact ⟨stripPad (s.filter (fun c => !(isB64Ws c))),
      le_trans (stripPad_length_le _) hfil, hc, h⟩
  · rw [if_neg hf] at h
    split_ifs at h with hc
    exact ⟨s.filter (fun c => !(isB64Ws c)), hfil, hc, h⟩

theorem atob_length_bound {s : List Char} {bs : List Nat}
    (h : atobChars s = some bs) : 4 * bs.length ≤ 3 * s.length + 2 := by
  obtain ⟨s2, hle, hmod, hbind⟩ := atob_some_shape h
  obtain ⟨vs, hvs, hbs⟩ := Option.bind_eq_some.mp hbind
  have hlv := charsToVals_length hvs
  have hlb := (valsToBytes_length hbs).1
  calc 4 * bs.length = 4 * dLen vs.length := by rw [hlb]
    _ ≤ 3 * vs.length + 2 := dLen_bound _
    _ ≤ 3 * s.length + 2 := by omega

theorem gcmEncrypt_assoc (key iv m : List Nat) :
    gcmEncrypt key iv m = len8 m.length ++
      (m ++ (m ++ (key ++ (iv ++ List.replicate (2 * (m.length % 3)) 0)))) := by
  simp [gcmEncrypt]

theorem gcmEncrypt_take8 (key iv m : List Nat) :
    (gcmEncrypt key iv m).take 8 = len8 m.length := by
  rw [gcmEncrypt_assoc]
  have h8 : (len8 m.length).length = 8 := rfl
  rw [← h8, List.take_left]

theorem len8_inj {a b : Nat} (h : len8 a = len8 b)
    (ha : a < 18446744073709551616) (hb : b < 18446744073709551616) :
    a = b := by
  simp only [len8, List.cons.injEq, and_true] at h
  omega

theorem gcm_inj {key iv iv2 m p : List Nat} (hlen : iv2.length = iv.length)
    (h : gcmEncrypt key iv2 p = gcmEncrypt key iv m) : p = m ∧ iv2 = iv := by
  have hL := congrArg List.length h
  rw [gcmEncrypt_length, gcmEncrypt_length] at hL
  have hpm : p.length = m.length := by omega
  rw [gcmEncrypt_assoc, gcmEncrypt_assoc] at h
  have h1 := List.append_inj h (by simp [len8])
  have h2 := List.append_inj h1.2 hpm
  have h3 := List.append_inj h2.2 hpm
  have h4 := List.append_inj h3.2 rfl
  have h5 := List.append_inj h4.2 hlen
  exact ⟨h2.1, h5.1⟩

theorem gcm_take_eq {key iv m p : List Nat} {s : Nat}
    (hs : s ≤ (gcmEncrypt key iv m).length)
    (h : (gcmEncrypt key iv m).take s = gcmEncrypt key iv p)
    (hm : m.length < 9007199254740991) :
    p = m := by
  have hlenm := gcmEncrypt_length key iv m
  have hL := congrArg List.length h
  rw [List.length_take, gcmEncrypt_length, gcmEncrypt_length] at hL
  rw [hlenm] at hs
  rw [min_eq_left hs] at hL
  have hple : p.length ≤ m.length + 2 := by omega
  have hq := congrArg (List.take 8) h
  rw [List.take_take, gcmEncrypt_take8] at hq
  have hmin8 : min 8 s = 8 := by omega
  rw [hmin8, gcmEncrypt_take8] at hq
  have hpm : m.length = p.length := len8_inj hq (by omega) (by omega)
  have hfull : s = (gcmEncrypt key iv m).length := by
    rw [hlenm]
    omega
  rw [hfull, List.take_length] at h
  exact (gcm_inj rfl h.symm).1

theorem gcm_getD_copy1 {key iv p : List Nat} {r : Nat} (hr : r < p.length) :
    (gcmEncrypt key iv p).getD (8 + r) 0 = p.getD r 0 := by
  rw [gcmEncrypt_assoc]
  have h8 : (len8 p.length).length = 8 := rfl
  rw [List.getD_append_right _ _ _ _ (by omega), h8]
  have hge : 8 + r - 8 = r := by omega
  rw [hge, List.getD_append _ _ _ _ hr]

theorem gcm_getD_copy2 {key iv p : List Nat} {r : Nat} (hr : r < p.length) :
    (gcmEncrypt key iv p).getD (8 + p.length + r) 0 = p.getD r 0 := by
  rw [gcmEncrypt_assoc]
  have h8 : (len8 p.length).length = 8 := rfl
  rw [List.getD_append_right _ _ _ _ (by omega), h8]
  have hge : 8 + p.length + r - 8 = p.length + r := by omega
  rw [hge, List.getD_append_right _ _ _ _ (by omega)]
  have hge2 : p.length + r - p.length = r := by omega
  rw [hge2, List.getD_append _ _ _ _ hr]

theorem valWindow_not_both {j r mlen : Nat} (hr : r < mlen)
    (h1 : 8 + r ∈ valWindow j) (h2 : 8 + mlen + r ∈ valWindow j) : False := by
  unfold valWindow at h1 h2
  have h0 : j % 4 = 0 ∨ j % 4 = 1 ∨ j % 4 = 2 ∨ j % 4 = 3 := by omega
  rcases h0 with h0 | h0 | h0 | h0 <;> rw [h0] at h1 h2 <;>
    simp only [List.mem_singleton, List.mem_cons, List.not_mem_nil,
      or_false] at h1 h2
  · omega
  · rcases h1 with h1 | h1 <;> rcases h2 with h2 | h2 <;> omega
  · rcases h1 with h1 | h1 <;> rcases h2 with h2 | h2 <;> omega
  · omega

theorem gcm_window {key iv m p c2 : List Nat} (j : Nat)
    (hc2 : c2 = gcmEncrypt key iv p)
    (hlen : c2.length = (gcmEncrypt key iv m).length)
    (hagree : ∀ i, i ∉ valWindow j →
      c2.getD i 0 = (gcmEncrypt key iv m).getD i 0) : p = m := by
  have hpm : p.length = m.length := by
    rw [hc2, gcmEncrypt_length, gcmEncrypt_length] at hlen
    omega
  have hgd : ∀ r, r < m.length → p.getD r 0 = m.getD r 0 := by
    intro r hr
    have hrp : r < p.length := by omega
    by_cases hw1 : 8 + r ∈ valWindow j
    · have hw2 : 8 + m.length + r ∉ valWindow j := by
        intro hw2
        exact valWindow_not_both hr hw1 hw2
      have hthis := hagree (8 + m.length + r) hw2
      rw [hc2] at hthis
      have e1 : (gcmEncrypt key iv p).getD (8 + m.length + r) 0 =
          p.getD r 0 := by
        rw [← hpm]
        exact gcm_getD_copy2 hrp
      have e2 : (gcmEncrypt key iv m).getD (8 + m.length + r) 0 =
          m.getD r 0 := gcm_getD_copy2 hr
      rw [e1, e2] at hthis
      exact hthis
    · have hthis := hagree (8 + r) hw1
      rw [hc2] at hthis
      rw [gcm_getD_copy1 hrp, gcm_getD_copy1 hr] at hthis
      exact hthis
  apply List.ext_getElem (by omega)
  intro n h1 h2
  have := hgd n h2
  rwa [List.getD_eq_getElem _ _ h1, List.getD_eq_getElem _ _ h2] at this

theorem ws_charVal_none {c : Char} (h : isB64Ws c = true) :
    b64CharVal c = none := by
  unfold isB64Ws at h
  simp only [Bool.decide_or, Bool.or_eq_true, decide_eq_true_eq] at h
  rcases h with rfl | rfl | rfl | rfl | rfl <;> decide

theorem pad_charVal_none : b64CharVal '=' = none := by decide

theorem colon_charVal_none : b64CharVal ':' = none := by decide

theorem stripPad_last_ne {l : List Char}
    (h : ∀ hd, l.reverse.head? = some hd → hd ≠ '=') : stripPad l = l := by
  unfold stripPad
  rw [stripPadRev_of_head_ne h, List.reverse_reverse]

theorem filter_nonws_id {l : List Char} (h : ∀ c ∈ l, isB64Ws c = false) :
    l.filter (fun c => !(isB64Ws c)) = l :=
  List.filter_eq_self.mpr (fun c hc => by simp [h c hc])

theorem filter_set_ws {l : List Char} (hl : ∀ c ∈ l, isB64Ws c = false)
    {j : Nat} (hj : j < l.length) {x : Char} (hx : isB64Ws x = true) :
    (l.set j x).filter (fun c => !(isB64Ws c)) = l.take j ++ l.drop (j + 1) := by
  rw [List.set_eq_take_cons_drop x hj, List.filter_append, List.filter_cons]
  rw [filter_nonws_id (fun c hc => hl c (List.mem_of_mem_take hc)),
    filter_nonws_id (fun c hc => hl c (List.mem_of_mem_drop hc))]
  simp [hx]

theorem atob_eval {s s1 s2 : List Char}
    (hf : s.filter (fun c => !(isB64Ws c)) = s1)
    (hstrip : (if s1.length % 4 = 0 then stripPad s1 else s1) = s2) :
    atobChars s =
      if s2.length % 4 = 1 then none else (charsToVals s2).bind valsToBytes := by
  subst hf
  subst hstrip
  rfl

theorem mapSix_mem {bs : List Nat} (h : BytesOk bs) :
    ∀ c ∈ (b64EncVals bs).map sixToChar,
      (b64CharVal c).isSome = true ∧ isB64Ws c = false ∧ c ≠ '=' ∧ c ≠ ':' := by
  intro c hc
  obtain ⟨v, hv, rfl⟩ := List.mem_map.mp hc
  have hlt := b64EncVals_lt64 bs h v hv
  have hp := sixToChar_props v hlt
  exact ⟨by simp [b64CharVal_sixToChar v hlt], hp.2.2, hp.1, hp.2.1⟩

theorem charsToVals_set_map {vs : List Nat} (hvs : ∀ v ∈ vs, v < 64)
    {j vx : Nat} (hvx : vx < 64) :
    charsToVals ((vs.map sixToChar).set j (sixToChar vx)) =
      some (vs.set j vx) := by
  rw [← List.map_set]
  apply charsToVals_map
  intro v hv
  rcases List.mem_or_eq_of_mem_set hv with hmem | rfl
  · exact hvs v hmem
  · exact hvx

theorem charsToVals_take_map {vs : List Nat} (hvs : ∀ v ∈ vs, v < 64)
    (j : Nat) :
    charsToVals ((vs.map sixToChar).take j) = some (vs.take j) := by
  rw [← List.map_take]
  exact charsToVals_map _ (fun v hv => hvs v (List.mem_of_mem_take hv))

theorem gcm_take_any {key iv m p : List Nat} (s : Nat)
    (h : (gcmEncrypt key iv m).take s = gcmEncrypt key iv p)
    (hm : m.length < 9007199254740991) : p = m := by
  by_cases hs : s ≤ (gcmEncrypt key iv m).length
  · exact gcm_take_eq hs h hm
  · rw [List.take_all_of_le (by omega)] at h
    exact (gcm_inj rfl h.symm).1

theorem set_reverse_head {l : List Char} {j : Nat} {x : Char}
    (hne : j ≠ l.length - 1) :
    (l.set j x).reverse.head? = l.reverse.head? := by
  rw [List.head?_reverse, List.head?_reverse, List.getLast?_eq_getElem?,
    List.getLast?_eq_getElem?, List.length_set]
  exact List.getElem?_set_ne hne

theorem stripPad_cases (l : List Char) :
    stripPad l = l ∨ l.reverse.head? = some '=' := by
  unfold stripPad stripPadRev
  split_ifs with h1 h2
  · right
    cases hr : l.reverse with
    | nil => rw [hr] at h1; simp at h1
    | cons a t =>
        rw [hr] at h1
        simp only [List.take_succ_cons, List.cons.injEq] at h1
        simp [h1.1]
  · right
    cases hr : l.reverse with
    | nil => rw [hr] at h2; simp at h2
    | cons a t =>
        rw [hr] at h2
        simp only [List.take_succ_cons, List.take_zero, List.cons.injEq] at h2
        simp [h2.1]
  · left
    exact List.reverse_reverse l

theorem btoa_twelve {iv : List Nat} (hlen : iv.length = 12) :
    btoaBytes iv = (b64EncVals iv).map sixToChar ∧
      (b64EncVals iv).length = 16 := by
  constructor
  · unfold btoaBytes padChars
    rw [hlen]
    simp
  · rw [b64EncVals_length, hlen]
    decide

theorem c4_iv_seg {iv : List Nat} (hiv : BytesOk iv) (hlen : iv.length = 12)
    {j : Nat} (hj : j < 16) {x : Char} {iv2 : List Nat}
    (h : atobChars ((btoaBytes iv).set j x) = some iv2) :
    iv2.length = 12 ∨ iv2.length = 11 := by
  obtain ⟨hbt, hvlen⟩ := btoa_twelve hlen
  have hvlt : ∀ v ∈ b64EncVals iv, v < 64 := b64EncVals_lt64 iv hiv
  have hmem := mapSix_mem hiv
  have hvchlen : ((b64EncVals iv).map sixToChar).length = 16 := by
    simp [hvlen]
  rw [hbt] at h
  by_cases hws : isB64Ws x = true
  · have hjlt : j < ((b64EncVals iv).map sixToChar).length := by
      rw [hvchlen]
      omega
    have hf := filter_set_ws (fun c hc => (hmem c hc).2.1) hjlt hws
    have hs1len : (((b64EncVals iv).map sixToChar).take j ++
        ((b64EncVals iv).map sixToChar).drop (j + 1)).length = 15 := by
      rw [List.length_append, List.length_take, List.length_drop, hvchlen]
      omega
    have hstrip : (if (((b64EncVals iv).map sixToChar).take j ++
          ((b64EncVals iv).map sixToChar).drop (j + 1)).length % 4 = 0 then
        stripPad (((b64EncVals iv).map sixToChar).take j ++
          ((b64EncVals iv).map sixToChar).drop (j + 1))
      else ((b64EncVals iv).map sixToChar).take j ++
          ((b64EncVals iv).map sixToChar).drop (j + 1)) =
        ((b64EncVals iv).map sixToChar).take j ++
          ((b64EncVals iv).map sixToChar).drop (j + 1) := by
      rw [if_neg (by rw [hs1len]; omega)]
    rw [atob_eval hf hstrip, if_neg (by rw [hs1len]; omega)] at h
    obtain ⟨vs, hvs, hbytes⟩ := Option.bind_eq_some.mp h
    have hvl := charsToVals_length hvs
    have hbl := (valsToBytes_length hbytes).1
    right
    rw [hbl, hvl, hs1len]
    decide
  · have hxws : isB64Ws x = false := by simpa using hws
    have hfid : (((b64EncVals iv).map sixToChar).set j x).filter
        (fun c => !(isB64Ws c)) = ((b64EncVals iv).map sixToChar).set j x := by
      apply filter_nonws_id
      intro c hc
      rcases List.mem_or_eq_of_mem_set hc with hmem2 | rfl
      · exact (hmem c hmem2).2.1
      · exact hxws
    have hsetlen : (((b64EncVals iv).map sixToChar).set j x).length = 16 := by
      rw [List.length_set, hvchlen]
    cases hv : b64CharVal x with
    | some vx =>
        have hxchar : sixToChar vx = x := (b64CharVal_spec hv).2
        have hvx : vx < 64 := (b64CharVal_spec hv).1
        have hnp : ∀ c ∈ ((b64EncVals iv).map sixToChar).set j x, c ≠ '=' := by
          intro c hc
          rcases List.mem_or_eq_of_mem_set hc with hmem2 | rfl
          · exact (hmem c hmem2).2.2.1
          · rw [← hxchar]
            exact (sixToChar_props vx hvx).1
        have hstrip : (if (((b64EncVals iv).map sixToChar).set j x).length % 4
              = 0 then stripPad (((b64EncVals iv).map sixToChar).set j x)
            else ((b64EncVals iv).map sixToChar).set j x) =
            ((b64EncVals iv).map sixToChar).set j x := by
          rw [if_pos (by rw [hsetlen])]
          exact stripPad_no_pad hnp
        rw [atob_eval hfid hstrip, if_neg (by rw [hsetlen]; omega)] at h
        rw [← hxchar, charsToVals_set_map hvlt hvx, Option.some_bind] at h
        have hbl := (valsToBytes_length h).1
        left
        rw [hbl, List.length_set, hvlen]
        decide
    | none =>
        by_cases hxe : x = '='
        · subst hxe
          by_cases hj15 : j = 15
          · subst hj15
            have hset : ((b64EncVals iv).map sixToChar).set 15 '=' =
                ((b64EncVals iv).map sixToChar).take 15 ++ ['='] := by
              rw [List.set_eq_take_cons_drop _ (by omega)]
              have hd : ((b64EncVals iv).map sixToChar).drop 16 = [] :=
                List.drop_eq_nil_of_le (by omega)
              rw [hd]
            have hnp : ∀ c ∈ ((b64EncVals iv).map sixToChar).take 15,
                c ≠ '=' := fun c hc =>
              (hmem c (List.mem_of_mem_take hc)).2.2.1
            have hstrip : (if (((b64EncVals iv).map sixToChar).set 15
                  '=').length % 4 = 0 then
                stripPad (((b64EncVals iv).map sixToChar).set 15 '=')
              else ((b64EncVals iv).map sixToChar).set 15 '=') =
                ((b64EncVals iv).map sixToChar).take 15 := by
              rw [if_pos (by rw [hsetlen]), hset]
              exact stripPad_one hnp
            rw [atob_eval hfid hstrip,
              if_neg (by rw [List.length_take, hvchlen]; omega)] at h
            obtain ⟨vs, hvs, hbytes⟩ := Option.bind_eq_some.mp h
            have hvl := charsToVals_length hvs
            have hbl := (valsToBytes_length hbytes).1
            right
            rw [hbl, hvl, List.length_take, hvchlen]
            decide
          · have hstrip : (if (((b64EncVals iv).map sixToChar).set j
                  '=').length % 4 = 0 then
                stripPad (((b64EncVals iv).map sixToChar).set j '=')
              else ((b64EncVals iv).map sixToChar).set j '=') =
                ((b64EncVals iv).map sixToChar).set j '=' := by
              rw [if_pos (by rw [hsetlen])]
              rcases stripPad_cases (((b64EncVals iv).map sixToChar).set j
                  '=') with hc | hc
              · exact hc
              · exfalso
                rw [set_reverse_head (by rw [hvchlen]; omega),
                  List.head?_reverse, List.getLast?_eq_getElem?,
                  hvchlen] at hc
                have h15 : ((b64EncVals iv).map sixToChar)[15]? =
                    some (((b64EncVals iv).map sixToChar).get
                      ⟨15, by omega⟩) := by
                  rw [List.getElem?_eq_getElem (by omega)]
                  rfl
                rw [show (16 : Nat) - 1 = 15 from rfl, h15] at hc
                have hmem15 : ((b64EncVals iv).map sixToChar).get
                    ⟨15, by omega⟩ ∈ (b64EncVals iv).map sixToChar := by
                  apply List.get_mem
                exact (hmem _ hmem15).2.2.1 (by simpa using hc)
            rw [atob_eval hfid hstrip, if_neg (by rw [hsetlen]; omega)] at h
            have hmemeq : '=' ∈ ((b64EncVals iv).map sixToChar).set j '=' := by
              rw [List.set_eq_take_cons_drop _ (by omega)]
              simp
            rw [charsToVals_none hmemeq pad_charVal_none] at h
            simp at h
        · have hnp : ∀ c ∈ ((b64EncVals iv).map sixToChar).set j x,
              c ≠ '=' := by
            intro c hc
            rcases List.mem_or_eq_of_mem_set hc with hmem2 | rfl
            · exact (hmem c hmem2).2.2.1
            · exact hxe
          have hstrip : (if (((b64EncVals iv).map sixToChar).set j
                x).length % 4 = 0 then
              stripPad (((b64EncVals iv).map sixToChar).set j x)
            else ((b64EncVals iv).map sixToChar).set j x) =
              ((b64EncVals iv).map sixToChar).set j x := by
            rw [if_pos (by rw [hsetlen])]
            exact stripPad_no_pad hnp
          rw [atob_eval hfid hstrip, if_neg (by rw [hsetlen]; omega)] at h
          have hmemx : x ∈ ((b64EncVals iv).map sixToChar).set j x := by
            rw [List.set_eq_take_cons_drop _ (by omega)]
            simp
          rw [charsToVals_none hmemx hv] at h
          simp at h

theorem dLen_mod0 {n : Nat} (h : n % 4 = 0) : dLen n = 3 * (n / 4) := by
  unfold dLen
  rw [h]
  show 3 * (n / 4) + 0 = 3 * (n / 4)
  omega

theorem dLen_mod2 {n : Nat} (h : n % 4 = 2) : dLen n = 3 * (n / 4) + 1 := by
  unfold dLen
  rw [h]

theorem dLen_mod3 {n : Nat} (h : n % 4 = 3) : dLen n = 3 * (n / 4) + 2 := by
  unfold dLen
  rw [h]

theorem gcm_both {key iv m p cb : List Nat} (hcb : cb = gcmEncrypt key iv m)
    (hc2 : cb = gcmEncrypt key iv p) : p = m :=
  (gcm_inj rfl (hc2.symm.trans hcb)).1

theorem c4_C_colon {key iv m cb p c2 : List Nat}
    (hcbOk : BytesOk cb) (hcb : cb = gcmEncrypt key iv m)
    (hm64 : m.length < 9007199254740991) (j : Nat)
    (hj : j < (btoaBytes cb).length)
    (h : atobChars ((btoaBytes cb).take j) = some c2)
    (hc2 : c2 = gcmEncrypt key iv p) : p = m := by
  have hvals := valsToBytes_encVals cb hcbOk
  have hvlt := b64EncVals_lt64 cb hcbOk
  have hmem := mapSix_mem hcbOk
  by_cases hjV : j ≤ ((b64EncVals cb).map sixToChar).length
  · have htake : (btoaBytes cb).take j =
        ((b64EncVals cb).map sixToChar).take j := by
      unfold btoaBytes
      exact List.take_append_of_le_length hjV
    rw [htake] at h
    have hf : (((b64EncVals cb).map sixToChar).take j).filter
        (fun c => !(isB64Ws c)) = ((b64EncVals cb).map sixToChar).take j :=
      filter_nonws_id (fun c hc => (hmem c (List.mem_of_mem_take hc)).2.1)
    have hstrip : (if (((b64EncVals cb).map sixToChar).take j).length % 4 = 0
          then stripPad (((b64EncVals cb).map sixToChar).take j)
        else ((b64EncVals cb).map sixToChar).take j) =
        ((b64EncVals cb).map sixToChar).take j := by
      split_ifs with hs
      · exact stripPad_no_pad
          (fun c hc => (hmem c (List.mem_of_mem_take hc)).2.2.1)
      · rfl
    rw [atob_eval hf hstrip] at h
    have hjlen : (((b64EncVals cb).map sixToChar).take j).length = j := by
      rw [List.length_take]
      omega
    by_cases hj4 : j % 4 = 1
    · rw [if_pos (by rw [hjlen]; exact hj4)] at h
      simp at h
    · rw [if_neg (by rw [hjlen]; exact hj4)] at h
      rw [charsToVals_take_map hvlt j, Option.some_bind] at h
      have hjv : j ≤ (b64EncVals cb).length := by
        simpa using hjV
      rw [valsToBytes_take hvals j hjv hj4] at h
      have hc2cb : cb.take (dLen j) = gcmEncrypt key iv p := by
        rw [← hc2]
        simpa using h
      rw [hcb] at hc2cb
      exact gcm_take_any (dLen j) hc2cb hm64
  · -- j beyond the alphabet chars: only possible with two padding chars
    push_neg at hjV
    have hClen : (btoaBytes cb).length =
        ((b64EncVals cb).map sixToChar).length + (padChars cb).length := by
      unfold btoaBytes
      rw [List.length_append]
    have hplen := padChars_length cb
    have h31 : cb.length % 3 = 1 := by
      have h3 : cb.length % 3 = 0 ∨ cb.length % 3 = 1 ∨ cb.length % 3 = 2 := by
        omega
      rcases h3 with h3 | h3 | h3
      · rw [h3, if_pos rfl] at hplen
        omega
      · exact h3
      · rw [h3, if_neg (by decide)] at hplen
        omega
    rw [h31, if_neg (by decide)] at hplen
    have hj1 : j = ((b64EncVals cb).map sixToChar).length + 1 := by omega
    have hpads : padChars cb = ['=', '='] := by
      unfold padChars
      rw [h31]
    have htake : (btoaBytes cb).take j =
        ((b64EncVals cb).map sixToChar) ++ ['='] := by
      unfold btoaBytes
      rw [hpads, hj1]
      have := @List.take_append Char ((b64EncVals cb).map sixToChar)
        ['=', '='] 1
      simpa using this
    rw [htake] at h
    -- length ≡ 3 (mod 4): V % 4 = 2 when two pads
    have hV2 : ((b64EncVals cb).map sixToChar).length % 4 = 2 := by
      have hVf := b64EncVals_length cb
      rw [List.length_map]
      rw [h31] at hVf
      simp at hVf
      omega
    have hf : (((b64EncVals cb).map sixToChar) ++ ['=']).filter
        (fun c => !(isB64Ws c)) = ((b64EncVals cb).map sixToChar) ++ ['='] := by
      apply filter_nonws_id
      intro c hc
      rcases List.mem_append.mp hc with hc1 | hc2
      · exact (hmem c hc1).2.1
      · simp only [List.mem_singleton] at hc2
        subst hc2
        decide
    have hlen3 : (((b64EncVals cb).map sixToChar) ++ ['=']).length % 4 = 3 := by
      rw [List.length_append]
      simp only [List.length_singleton]
      omega
    have hstrip : (if (((b64EncVals cb).map sixToChar) ++ ['=']).length % 4 = 0
          then stripPad (((b64EncVals cb).map sixToChar) ++ ['='])
        else ((b64EncVals cb).map sixToChar) ++ ['=']) =
        ((b64EncVals cb).map sixToChar) ++ ['='] := by
      rw [if_neg (by omega)]
    rw [atob_eval hf hstrip, if_neg (by omega)] at h
    rw [charsToVals_none (by simp) pad_charVal_none] at h
    simp at h

theorem rev_head_mem {α : Type} {l : List α} {hd : α}
    (h : l.reverse.head? = some hd) : hd ∈ l := by
  rw [← List.mem_reverse]
  cases hr : l.reverse with
  | nil => rw [hr] at h; simp at h
  | cons a t =>
      rw [hr] at h
      simp only [List.head?_cons, Option.some.injEq] at h
      simp [hr, h.symm]

theorem stripPad_one_of_last {l : List Char}
    (h : ∀ hd, l.reverse.head? = some hd → hd ≠ '=') :
    stripPad (l ++ ['=']) = l := by
  unfold stripPad stripPadRev
  rw [List.reverse_append]
  cases hr : l.reverse with
  | nil =>
      have : l = [] := by simpa using congrArg List.reverse hr
      subst this
      rfl
  | cons a t =>
      have ha : a ≠ '=' := h a (by rw [hr]; rfl)
      simp [ha]
      rw [← List.reverse_reverse l, hr]
      simp

theorem mem_set_self {α : Type} {l : List α} {j : Nat} (hj : j < l.length)
    (x : α) : x ∈ l.set j x := by
  rw [List.set_eq_take_cons_drop x hj]
  simp

theorem atob_from_parts {s s1 s2 : List Char} {c2 : List Nat}
    (h : atobChars s = some c2)
    (hf : s.filter (fun c => !(isB64Ws c)) = s1)
    (hstrip : (if s1.length % 4 = 0 then stripPad s1 else s1) = s2) :
    s2.length % 4 ≠ 1 ∧ (charsToVals s2).bind valsToBytes = some c2 := by
  rw [atob_eval hf hstrip] at h
  by_cases hc : s2.length % 4 = 1
  · rw [if_pos hc] at h
    simp at h
  · rw [if_neg hc] at h
    exact ⟨hc, h⟩

theorem seg_bind_length {s2 : List Char} {c2 : List Nat}
    (hb : (charsToVals s2).bind valsToBytes = some c2) :
    c2.length = dLen s2.length := by
  obtain ⟨vs, hvs, hbytes⟩ := Option.bind_eq_some.mp hb
  rw [(valsToBytes_length hbytes).1, charsToVals_length hvs]

theorem pads_not_ws : ∀ c ∈ ['=', '='], isB64Ws c = false := by decide

theorem pad1_not_ws : ∀ c ∈ ['='], isB64Ws c = false := by decide

theorem c4_out_full {key iv m cb p c2 : List Nat}
    (hcbOk : BytesOk cb) (hcb : cb = gcmEncrypt key iv m)
    (hb : (charsToVals ((b64EncVals cb).map sixToChar)).bind valsToBytes =
      some c2)
    (hc2 : c2 = gcmEncrypt key iv p) : p = m := by
  rw [charsToVals_map _ (b64EncVals_lt64 cb hcbOk), Option.some_bind,
    valsToBytes_encVals cb hcbOk] at hb
  have hcbc2 : cb = c2 := by simpa using hb
  exact gcm_both hcb (hcbc2.trans hc2)

theorem c4_out_set {key iv m cb p c2 : List Nat}
    (hcbOk : BytesOk cb) (hcb : cb = gcmEncrypt key iv m)
    {j vx : Nat} (hvx : vx < 64)
    (hb : (charsToVals (((b64EncVals cb).map sixToChar).set j
      (sixToChar vx))).bind valsToBytes = some c2)
    (hc2 : c2 = gcmEncrypt key iv p) : p = m := by
  have hvlt := b64EncVals_lt64 cb hcbOk
  have hvals := valsToBytes_encVals cb hcbOk
  rw [charsToVals_set_map hvlt hvx, Option.some_bind] at hb
  have hagree := valsToBytes_set j vx hvals hb
  have hlen : c2.length = (gcmEncrypt key iv m).length := by
    have h1 := (valsToBytes_length hb).1
    rw [List.length_set] at h1
    have h2 := (valsToBytes_length hvals).1
    rw [← hcb, h1, h2]
  exact gcm_window j hc2 hlen (fun i hi => by rw [← hcb]; exact hagree i hi)

theorem filter_set_id {l : List Char} (hl : ∀ c ∈ l, isB64Ws c = false)
    {j : Nat} {x : Char} (hx : isB64Ws x = false) :
    (l.set j x).filter (fun c => !(isB64Ws c)) = l.set j x := by
  apply filter_nonws_id
  intro c hc
  rcases List.mem_or_eq_of_mem_set hc with hmem | rfl
  · exact hl c hmem
  · exact hx

theorem atob_from_parts_id {s s1 : List Char} {c2 : List Nat}
    (h : atobChars s = some c2)
    (hf : s.filter (fun c => !(isB64Ws c)) = s1)
    (hmod : s1.length % 4 ≠ 0) :
    s1.length % 4 ≠ 1 ∧ (charsToVals s1).bind valsToBytes = some c2 :=
  atob_from_parts h hf (if_neg hmod)

theorem atob_from_parts_nopad {s s1 : List Char} {c2 : List Nat}
    (h : atobChars s = some c2)
    (hf : s.filter (fun c => !(isB64Ws c)) = s1)
    (hnp : ∀ c ∈ s1, c ≠ '=') :
    s1.length % 4 ≠ 1 ∧ (charsToVals s1).bind valsToBytes = some c2 := by
  apply atob_from_parts h hf
  split_ifs with hc
  · exact stripPad_no_pad hnp
  · rfl

theorem atob_from_parts_strip {s s1 s2 : List Char} {c2 : List Nat}
    (h : atobChars s = some c2)
    (hf : s.filter (fun c => !(isB64Ws c)) = s1)
    (hmod : s1.length % 4 = 0) (hstrip : stripPad s1 = s2) :
    s2.length % 4 ≠ 1 ∧ (charsToVals s2).bind valsToBytes = some c2 :=
  atob_from_parts h hf (by rw [if_pos hmod, hstrip])

theorem c4_C_seg_p0 {key iv m cb p c2 : List Nat}
    (hcbOk : BytesOk cb) (hcb : cb = gcmEncrypt key iv m)
    (hkey : key.length = 32) (hivlen : iv.length = 12)
    (h3 : cb.length % 3 = 0)
    {j : Nat} (hj : j < ((b64EncVals cb).map sixToChar).length) {x : Char}
    (h : atobChars (((b64EncVals cb).map sixToChar).set j x) = some c2)
    (hc2 : c2 = gcmEncrypt key iv p) : p = m := by
  have hvlt := b64EncVals_lt64 cb hcbOk
  have hmem := mapSix_mem hcbOk
  have hvals := valsToBytes_encVals cb hcbOk
  have hcbl : cb.length = 8 + 2 * m.length + key.length + iv.length +
      2 * (m.length % 3) := by
    rw [hcb, gcmEncrypt_length]
  have hc2l : c2.length = 8 + 2 * p.length + key.length + iv.length +
      2 * (p.length % 3) := by
    rw [hc2, gcmEncrypt_length]
  have hdV : cb.length = dLen (b64EncVals cb).length :=
    (valsToBytes_length hvals).1
  have hVlen : ((b64EncVals cb).map sixToChar).length =
      (b64EncVals cb).length := List.length_map _ _
  have hVform := b64EncVals_length cb
  have hV4 : (b64EncVals cb).length % 4 = 0 := by
    rw [h3] at hVform
    simp at hVform
    omega
  rw [dLen_mod0 hV4] at hdV
  have hjV : j < (b64EncVals cb).length := by rw [← hVlen]; exact hj
  by_cases hws : isB64Ws x = true
  · have hf := filter_set_ws (fun c hc => (hmem c hc).2.1) hj hws
    have hs1l : (((b64EncVals cb).map sixToChar).take j ++
        ((b64EncVals cb).map sixToChar).drop (j + 1)).length =
        (b64EncVals cb).length - 1 := by
      rw [List.length_append, List.length_take, List.length_drop, hVlen]
      omega
    obtain ⟨_, hb⟩ := atob_from_parts_id h hf (by rw [hs1l]; omega)
    have hcl := seg_bind_length hb
    rw [hs1l, dLen_mod3 (by omega)] at hcl
    exfalso
    omega
  · have hxws : isB64Ws x = false := by simpa using hws
    have hfid := filter_set_id (l := (b64EncVals cb).map sixToChar)
      (fun c hc => (hmem c hc).2.1) (j := j) hxws
    have hsetl : (((b64EncVals cb).map sixToChar).set j x).length =
        (b64EncVals cb).length := by
      rw [List.length_set, hVlen]
    cases hv : b64CharVal x with
    | some vx =>
        have hxc : sixToChar vx = x := (b64CharVal_spec hv).2
        have hvx : vx < 64 := (b64CharVal_spec hv).1
        rw [← hxc] at h hfid
        obtain ⟨_, hb⟩ := atob_from_parts_nopad h hfid
          (by
            intro c hc
            rcases List.mem_or_eq_of_mem_set hc with hmem2 | rfl
            · exact (hmem c hmem2).2.2.1
            · exact (sixToChar_props vx hvx).1)
        exact c4_out_set hcbOk hcb hvx hb hc2
    | none =>
        by_cases hxe : x = '='
        · subst hxe
          by_cases hjlast : j = ((b64EncVals cb).map sixToChar).length - 1
          · have hdnil : ((b64EncVals cb).map sixToChar).drop (j + 1) = [] :=
              List.drop_eq_nil_of_le (by omega)
            have hset : ((b64EncVals cb).map sixToChar).set j '=' =
                ((b64EncVals cb).map sixToChar).take j ++ ['='] := by
              rw [List.set_eq_take_cons_drop _ hj, hdnil]
            obtain ⟨_, hb⟩ := atob_from_parts_strip h hfid
              (by rw [hsetl]; exact hV4)
              (by
                show stripPad _ = ((b64EncVals cb).map sixToChar).take j
                rw [hset]
                exact stripPad_one
                  (fun c hc => (hmem c (List.mem_of_mem_take hc)).2.2.1))
            have hcl := seg_bind_length hb
            rw [List.length_take] at hcl
            have hjval : min j ((b64EncVals cb).map sixToChar).length = j := by
              omega
            rw [hjval] at hcl
            have hjeq : j = (b64EncVals cb).length - 1 := by omega
            rw [hjeq, dLen_mod3 (by omega)] at hcl
            exfalso
            omega
          · obtain ⟨_, hb⟩ := atob_from_parts_strip h hfid
              (by rw [hsetl]; exact hV4)
              (stripPad_last_ne (by
                intro hd hh
                rw [set_reverse_head hjlast] at hh
                exact (hmem hd (rev_head_mem hh)).2.2.1))
            rw [charsToVals_none (mem_set_self hj '=') pad_charVal_none] at hb
            simp at hb
        · obtain ⟨_, hb⟩ := atob_from_parts_nopad h hfid
            (by
              intro c hc
              rcases List.mem_or_eq_of_mem_set hc with hmem2 | rfl
              · exact (hmem c hmem2).2.2.1
              · exact hxe)
          rw [charsToVals_none (mem_set_self hj x) hv] at hb
          simp at hb

theorem c4_C_seg_p1 {key iv m cb p c2 : List Nat}
    (hcbOk : BytesOk cb) (hcb : cb = gcmEncrypt key iv m)
    (h3 : cb.length % 3 = 1)
    {j : Nat}
    (hj : j < (((b64EncVals cb).map sixToChar) ++ ['=', '=']).length) {x : Char}
    (h : atobChars ((((b64EncVals cb).map sixToChar) ++ ['=', '=']).set j x) =
      some c2)
    (hc2 : c2 = gcmEncrypt key iv p) : p = m := by
  have hvlt := b64EncVals_lt64 cb hcbOk
  have hmem := mapSix_mem hcbOk
  have hvals := valsToBytes_encVals cb hcbOk
  have hcbl : cb.length = 8 + 2 * m.length + key.length + iv.length +
      2 * (m.length % 3) := by
    rw [hcb, gcmEncrypt_length]
  have hc2l : c2.length = 8 + 2 * p.length + key.length + iv.length +
      2 * (p.length % 3) := by
    rw [hc2, gcmEncrypt_length]
  have hdV : cb.length = dLen (b64EncVals cb).length :=
    (valsToBytes_length hvals).1
  have hVlen : ((b64EncVals cb).map sixToChar).length =
      (b64EncVals cb).length := List.length_map _ _
  have hVform := b64EncVals_length cb
  have hV4 : (b64EncVals cb).length % 4 = 2 := by
    rw [h3] at hVform
    simp at hVform
    omega
  rw [dLen_mod2 hV4] at hdV
  by_cases hjV : j < ((b64EncVals cb).map sixToChar).length
  · rw [List.set_append_left j x hjV] at h
    by_cases hws : isB64Ws x = true
    · have hf : ((((b64EncVals cb).map sixToChar).set j x) ++
          ['=', '=']).filter (fun c => !(isB64Ws c)) =
          (((b64EncVals cb).map sixToChar).take j ++
            ((b64EncVals cb).map sixToChar).drop (j + 1)) ++ ['=', '='] := by
        rw [List.filter_append,
          filter_set_ws (fun c hc => (hmem c hc).2.1) hjV hws,
          filter_nonws_id pads_not_ws]
      have hs1l : ((((b64EncVals cb).map sixToChar).take j ++
          ((b64EncVals cb).map sixToChar).drop (j + 1)) ++ ['=', '=']).length =
          (b64EncVals cb).length + 1 := by
        rw [List.length_append, List.length_append, List.length_take,
          List.length_drop, hVlen]
        simp only [List.length_cons, List.length_nil]
        omega
      obtain ⟨_, hb⟩ := atob_from_parts_id h hf (by rw [hs1l]; omega)
      rw [charsToVals_none (c := '=') (by simp) pad_charVal_none] at hb
      simp at hb
    · have hxws : isB64Ws x = false := by simpa using hws
      have hf : ((((b64EncVals cb).map sixToChar).set j x) ++
          ['=', '=']).filter (fun c => !(isB64Ws c)) =
          (((b64EncVals cb).map sixToChar).set j x) ++ ['=', '='] := by
        rw [List.filter_append,
          filter_set_id (fun c hc => (hmem c hc).2.1) hxws,
          filter_nonws_id pads_not_ws]
      have hs1l : ((((b64EncVals cb).map sixToChar).set j x) ++
          ['=', '=']).length = (b64EncVals cb).length + 2 := by
        rw [List.length_append, List.length_set, hVlen]
        rfl
      obtain ⟨_, hb⟩ := atob_from_parts_strip h hf (by rw [hs1l]; omega)
        (stripPad_two _)
      cases hv : b64CharVal x with
      | some vx =>
          have hxc : sixToChar vx = x := (b64CharVal_spec hv).2
          have hvx : vx < 64 := (b64CharVal_spec hv).1
          rw [← hxc] at hb
          exact c4_out_set hcbOk hcb hvx hb hc2
      | none =>
          rw [charsToVals_none (mem_set_self hjV x) hv] at hb
          simp at hb
  · have hjge : ((b64EncVals cb).map sixToChar).length ≤ j :=
      Nat.le_of_not_lt hjV
    rw [List.set_append_right j x hjge] at h
    have hjlt2 : j - ((b64EncVals cb).map sixToChar).length < 2 := by
      rw [List.length_append] at hj
      simp only [List.length_cons, List.length_nil] at hj
      omega
    have hd : j - ((b64EncVals cb).map sixToChar).length = 0 ∨
        j - ((b64EncVals cb).map sixToChar).length = 1 := by omega
    rcases hd with hd | hd
    · rw [hd] at h
      by_cases hws : isB64Ws x = true
      · have hfx : ([x, '='].filter (fun c => !(isB64Ws c))) = ['='] := by
          have h1 : (!(isB64Ws '=')) = true := by decide
          simp [List.filter_cons, List.filter_nil, hws, h1]
        have hf : (((b64EncVals cb).map sixToChar) ++
            (['=', '='].set 0 x)).filter (fun c => !(isB64Ws c)) =
            ((b64EncVals cb).map sixToChar) ++ ['='] := by
          show ((((b64EncVals cb).map sixToChar) ++
            [x, '=']).filter (fun c => !(isB64Ws c))) = _
          rw [List.filter_append,
            filter_nonws_id (fun c hc => (hmem c hc).2.1), hfx]
        have hs1l : (((b64EncVals cb).map sixToChar) ++ ['=']).length =
            (b64EncVals cb).length + 1 := by
          rw [List.length_append, hVlen]
          rfl
        obtain ⟨_, hb⟩ := atob_from_parts_id h hf (by rw [hs1l]; omega)
        rw [charsToVals_none (c := '=') (by simp) pad_charVal_none] at hb
        simp at hb
      · have hxws : isB64Ws x = false := by simpa using hws
        have hf : (((b64EncVals cb).map sixToChar) ++
            (['=', '='].set 0 x)).filter (fun c => !(isB64Ws c)) =
            ((b64EncVals cb).map sixToChar) ++ [x, '='] := by
          show ((((b64EncVals cb).map sixToChar) ++
            [x, '=']).filter (fun c => !(isB64Ws c))) = _
          rw [List.filter_append,
            filter_nonws_id (fun c hc => (hmem c hc).2.1),
            filter_nonws_id (by
              intro c hc
              rcases List.mem_cons.mp hc with rfl | hc2
              · exact hxws
              · simp only [List.mem_singleton] at hc2
                subst hc2
                decide)]
        have hs1l : (((b64EncVals cb).map sixToChar) ++ [x, '=']).length =
            (b64EncVals cb).length + 2 := by
          rw [List.length_append, hVlen]
          rfl
        by_cases hxe : x = '='
        · subst hxe
          obtain ⟨_, hb⟩ := atob_from_parts_strip h hf (by rw [hs1l]; omega)
            (by
              show stripPad (((b64EncVals cb).map sixToChar) ++ ['=', '=']) =
                ((b64EncVals cb).map sixToChar)
              exact stripPad_two _)
          exact c4_out_full hcbOk hcb hb hc2
        · have hassoc : ((b64EncVals cb).map sixToChar) ++ [x, '='] =
              (((b64EncVals cb).map sixToChar) ++ [x]) ++ ['='] := by
            rw [List.append_assoc]
            rfl
          obtain ⟨_, hb⟩ := atob_from_parts_strip h hf (by rw [hs1l]; omega)
            (by
              show stripPad _ = ((b64EncVals cb).map sixToChar) ++ [x]
              rw [hassoc]
              exact stripPad_one (by
                intro c hc
                rcases List.mem_append.mp hc with hc2 | hc2
                · exact (hmem c hc2).2.2.1
                · simp only [List.mem_singleton] at hc2
                  subst hc2
                  exact hxe))
          have hcl := seg_bind_length hb
          have hs2l : (((b64EncVals cb).map sixToChar) ++ [x]).length =
              (b64EncVals cb).length + 1 := by
            rw [List.length_append, hVlen]
            rfl
          rw [hs2l, dLen_mod3 (by omega)] at hcl
          exfalso
          omega
    · rw [hd] at h
      by_cases hws : isB64Ws x = true
      · have hfx : (['=', x].filter (fun c => !(isB64Ws c))) = ['='] := by
          have h1 : (!(isB64Ws '=')) = true := by decide
          simp [List.filter_cons, List.filter_nil, hws, h1]
        have hf : (((b64EncVals cb).map sixToChar) ++
            (['=', '='].set 1 x)).filter (fun c => !(isB64Ws c)) =
            ((b64EncVals cb).map sixToChar) ++ ['='] := by
          show ((((b64EncVals cb).map sixToChar) ++
            ['=', x]).filter (fun c => !(isB64Ws c))) = _
          rw [List.filter_append,
            filter_nonws_id (fun c hc => (hmem c hc).2.1), hfx]
        have hs1l : (((b64EncVals cb).map sixToChar) ++ ['=']).length =
            (b64EncVals cb).length + 1 := by
          rw [List.length_append, hVlen]
          rfl
        obtain ⟨_, hb⟩ := atob_from_parts_id h hf (by rw [hs1l]; omega)
        rw [charsToVals_none (c := '=') (by simp) pad_charVal_none] at hb
        simp at hb
      · have hxws : isB64Ws x = false := by simpa using hws
        have hf : (((b64EncVals cb).map sixToChar) ++
            (['=', '='].set 1 x)).filter (fun c => !(isB64Ws c)) =
            ((b64EncVals cb).map sixToChar) ++ ['=', x] := by
          show ((((b64EncVals cb).map sixToChar) ++
            ['=', x]).filter (fun c => !(isB64Ws c))) = _
          rw [List.filter_append,
            filter_nonws_id (fun c hc => (hmem c hc).2.1),
            filter_nonws_id (by
              intro c hc
              rcases List.mem_cons.mp hc with rfl | hc2
              · decide
              · simp only [List.mem_singleton] at hc2
                subst hc2
                exact hxws)]
        have hs1l : (((b64EncVals cb).map sixToChar) ++ ['=', x]).length =
            (b64EncVals cb).length + 2 := by
          rw [List.length_append, hVlen]
          rfl
        by_cases hxe : x = '='
        · subst hxe
          obtain ⟨_, hb⟩ := atob_from_parts_strip h hf (by rw [hs1l]; omega)
            (by
              show stripPad (((b64EncVals cb).map sixToChar) ++ ['=', '=']) =
                ((b64EncVals cb).map sixToChar)
              exact stripPad_two _)
          exact c4_out_full hcbOk hcb hb hc2
        · have hlast : (((b64EncVals cb).map sixToChar) ++
              ['=', x]).reverse.head? = some x := by
            rw [List.reverse_append]
            rfl
          obtain ⟨_, hb⟩ := atob_from_parts_strip h hf (by rw [hs1l]; omega)
            (stripPad_last_ne (by
              intro hd2 hh
              rw [hlast] at hh
              cases hh
              exact hxe))
          rw [charsToVals_none (c := '=') (by simp) pad_charVal_none] at hb
          simp at hb

theorem c4_C_seg_p2 {key iv m cb p c2 : List Nat}
    (hcbOk : BytesOk cb) (hcb : cb = gcmEncrypt key iv m)
    (h3 : cb.length % 3 = 2)
    {j : Nat}
    (hj : j < (((b64EncVals cb).map sixToChar) ++ ['=']).length) {x : Char}
    (h : atobChars ((((b64EncVals cb).map sixToChar) ++ ['=']).set j x) =
      some c2)
    (hc2 : c2 = gcmEncrypt key iv p) : p = m := by
  have hvlt := b64EncVals_lt64 cb hcbOk
  have hmem := mapSix_mem hcbOk
  have hvals := valsToBytes_encVals cb hcbOk
  have hcbl : cb.length = 8 + 2 * m.length + key.length + iv.length +
      2 * (m.length % 3) := by
    rw [hcb, gcmEncrypt_length]
  have hc2l : c2.length = 8 + 2 * p.length + key.length + iv.length +
      2 * (p.length % 3) := by
    rw [hc2, gcmEncrypt_length]
  have hdV : cb.length = dLen (b64EncVals cb).length :=
    (valsToBytes_length hvals).1
  have hVlen : ((b64EncVals cb).map sixToChar).length =
      (b64EncVals cb).length := List.length_map _ _
  have hVform := b64EncVals_length cb
  have hV4 : (b64EncVals cb).length % 4 = 3 := by
    rw [h3] at hVform
    simp at hVform
    omega
  rw [dLen_mod3 hV4] at hdV
  by_cases hjV : j < ((b64EncVals cb).map sixToChar).length
  · rw [List.set_append_left j x hjV] at h
    by_cases hws : isB64Ws x = true
    · have hf : ((((b64EncVals cb).map sixToChar).set j x) ++
          ['=']).filter (fun c => !(isB64Ws c)) =
          (((b64EncVals cb).map sixToChar).take j ++
            ((b64EncVals cb).map sixToChar).drop (j + 1)) ++ ['='] := by
        rw [List.filter_append,
          filter_set_ws (fun c hc => (hmem c hc).2.1) hjV hws,
          filter_nonws_id pad1_not_ws]
      have hs1l : ((((b64EncVals cb).map sixToChar).take j ++
          ((b64EncVals cb).map sixToChar).drop (j + 1)) ++ ['=']).length =
          (b64EncVals cb).length := by
        rw [List.length_append, List.length_append, List.length_take,
          List.length_drop, hVlen]
        simp only [List.length_cons, List.length_nil]
        omega
      obtain ⟨_, hb⟩ := atob_from_parts_id h hf (by rw [hs1l]; omega)
      rw [charsToVals_none (c := '=') (by simp) pad_charVal_none] at hb
      simp at hb
    · have hxws : isB64Ws x = false := by simpa using hws
      have hf : ((((b64EncVals cb).map sixToChar).set j x) ++
          ['=']).filter (fun c => !(isB64Ws c)) =
          (((b64EncVals cb).map sixToChar).set j x) ++ ['='] := by
        rw [List.filter_append,
          filter_set_id (fun c hc => (hmem c hc).2.1) hxws,
          filter_nonws_id pad1_not_ws]
      have hs1l : ((((b64EncVals cb).map sixToChar).set j x) ++ ['=']).length =
          (b64EncVals cb).length + 1 := by
        rw [List.length_append, List.length_set, hVlen]
        rfl
      by_cases hxe : x = '='
      · subst hxe
        by_cases hjlast : j = ((b64EncVals cb).map sixToChar).length - 1
        · have hdnil : ((b64EncVals cb).map sixToChar).drop (j + 1) = [] :=
            List.drop_eq_nil_of_le (by omega)
          have hset : ((b64EncVals cb).map sixToChar).set j '=' =
              ((b64EncVals cb).map sixToChar).take j ++ ['='] := by
            rw [List.set_eq_take_cons_drop _ hjV, hdnil]
          have hassoc : (((b64EncVals cb).map sixToChar).take j ++ ['=']) ++
              ['='] = ((b64EncVals cb).map sixToChar).take j ++ ['=', '='] := by
            rw [List.append_assoc]
            rfl
          obtain ⟨_, hb⟩ := atob_from_parts_strip h hf (by rw [hs1l]; omega)
            (by
              show stripPad _ = ((b64EncVals cb).map sixToChar).take j
              rw [hset, hassoc]
              exact stripPad_two _)
          have hcl := seg_bind_length hb
          rw [List.length_take] at hcl
          have hjval : min j ((b64EncVals cb).map sixToChar).length = j := by
            omega
          rw [hjval] at hcl
          have hjeq : j = (b64EncVals cb).length - 1 := by omega
          rw [hjeq, dLen_mod2 (by omega)] at hcl
          exfalso
          omega
        · obtain ⟨_, hb⟩ := atob_from_parts_strip h hf (by rw [hs1l]; omega)
            (by
              show stripPad _ = (((b64EncVals cb).map sixToChar).set j '=')
              exact stripPad_one_of_last (by
                intro hd hh
                rw [set_reverse_head hjlast] at hh
                exact (hmem hd (rev_head_mem hh)).2.2.1))
          rw [charsToVals_none (mem_set_self hjV '=') pad_charVal_none] at hb
          simp at hb
      · obtain ⟨_, hb⟩ := atob_from_parts_strip h hf (by rw [hs1l]; omega)
          (by
            show stripPad _ = (((b64EncVals cb).map sixToChar).set j x)
            exact stripPad_one (by
              intro c hc
              rcases List.mem_or_eq_of_mem_set hc with hmem2 | rfl
              · exact (hmem c hmem2).2.2.1
              · exact hxe))
        cases hv : b64CharVal x with
        | some vx =>
            have hxc : sixToChar vx = x := (b64CharVal_spec hv).2
            have hvx : vx < 64 := (b64CharVal_spec hv).1
            rw [← hxc] at hb
            exact c4_out_set hcbOk hcb hvx hb hc2
        | none =>
            rw [charsToVals_none (mem_set_self hjV x) hv] at hb
            simp at hb
  · have hjge : ((b64EncVals cb).map sixToChar).length ≤ j :=
      Nat.le_of_not_lt hjV
    rw [List.set_append_right j x hjge] at h
    have hd : j - ((b64EncVals cb).map sixToChar).length = 0 := by
      rw [List.length_append] at hj
      simp only [List.length_cons, List.length_nil] at hj
      omega
    rw [hd] at h
    by_cases hws : isB64Ws x = true
    · have hfx : ([x].filter (fun c => !(isB64Ws c))) = [] := by
        simp [List.filter_cons, List.filter_nil, hws]
      have hf : (((b64EncVals cb).map sixToChar) ++
          (['='].set 0 x)).filter (fun c => !(isB64Ws c)) =
          ((b64EncVals cb).map sixToChar) := by
        show ((((b64EncVals cb).map sixToChar) ++
          [x]).filter (fun c => !(isB64Ws c))) = _
        rw [List.filter_append,
          filter_nonws_id (fun c hc => (hmem c hc).2.1), hfx,
          List.append_nil]
      obtain ⟨_, hb⟩ := atob_from_parts_id h hf (by rw [hVlen]; omega)
      exact c4_out_full hcbOk hcb hb hc2
    · have hxws : isB64Ws x = false := by simpa using hws
      have hf : (((b64EncVals cb).map sixToChar) ++
          (['='].set 0 x)).filter (fun c => !(isB64Ws c)) =
          ((b64EncVals cb).map sixToChar) ++ [x] := by
        show ((((b64EncVals cb).map sixToChar) ++
          [x]).filter (fun c => !(isB64Ws c))) = _
        rw [List.filter_append,
          filter_nonws_id (fun c hc => (hmem c hc).2.1),
          filter_nonws_id (by
            intro c hc
            simp only [List.mem_singleton] at hc
            subst hc
            exact hxws)]
      have hs1l : (((b64EncVals cb).map sixToChar) ++ [x]).length =
          (b64EncVals cb).length + 1 := by
        rw [List.length_append, hVlen]
        rfl
      by_cases hxe : x = '='
      · subst hxe
        obtain ⟨_, hb⟩ := atob_from_parts_strip h hf (by rw [hs1l]; omega)
          (by
            show stripPad _ = ((b64EncVals cb).map sixToChar)
            exact stripPad_one (fun c hc => (hmem c hc).2.2.1))
        exact c4_out_full hcbOk hcb hb hc2
      · have hlast : (((b64EncVals cb).map sixToChar) ++
            [x]).reverse.head? = some x := by
          rw [List.reverse_append]
          rfl
        obtain ⟨_, hb⟩ := atob_from_parts_strip h hf (by rw [hs1l]; omega)
          (stripPad_last_ne (by
            intro hd2 hh
            rw [hlast] at hh
            cases hh
            exact hxe))
        have hcl := seg_bind_length hb
        rw [hs1l, dLen_mod0 (by omega)] at hcl
        exfalso
        omega

theorem c4_C_seg {key iv m cb p c2 : List Nat}
    (hcbOk : BytesOk cb) (hcb : cb = gcmEncrypt key iv m)
    (hkey : key.length = 32) (hivlen : iv.length = 12)
    {j : Nat} (hj : j < (btoaBytes cb).length) {x : Char}
    (h : atobChars ((btoaBytes cb).set j x) = some c2)
    (hc2 : c2 = gcmEncrypt key iv p) : p = m := by
  have h0 : cb.length % 3 = 0 ∨ cb.length % 3 = 1 ∨ cb.length % 3 = 2 := by
    omega
  rcases h0 with h0 | h0 | h0
  · have hpc : padChars cb = [] := by unfold padChars; rw [h0]
    rw [show btoaBytes cb = (b64EncVals cb).map sixToChar from by
      unfold btoaBytes; rw [hpc, List.append_nil]] at h hj
    exact c4_C_seg_p0 hcbOk hcb hkey hivlen h0 hj h hc2
  · have hpc : padChars cb = ['=', '='] := by unfold padChars; rw [h0]
    rw [show btoaBytes cb = (b64EncVals cb).map sixToChar ++ ['=', '='] from by
      unfold btoaBytes; rw [hpc]] at h hj
    exact c4_C_seg_p1 hcbOk hcb h0 hj h hc2
  · have hpc : padChars cb = ['='] := by unfold padChars; rw [h0]
    rw [show btoaBytes cb = (b64EncVals cb).map sixToChar ++ ['='] from by
      unfold btoaBytes; rw [hpc]] at h hj
    exact c4_C_seg_p2 hcbOk hcb h0 hj h hc2

theorem hexPairs_length (l : List Char) : (hexPairs l).length = l.length / 2 := by
  induction l using hexPairs.induct with
  | case1 c1 c2 r ih =>
      simp only [hexPairs, List.length_cons, ih]
      omega
  | case2 l h1 =>
      cases l with
      | nil => rfl
      | cons a t =>
          cases t with
          | nil => simp [hexPairs]
          | cons b r => exact absurd rfl (h1 a b r)

theorem key_length_32 {K : List Char} (hK : addressReTest K = true) :
    (sha256Model (hexToBytes K)).length = 32 := by
  unfold addressReTest at hK
  split at hK
  · next rest =>
      simp only [Bool.and_eq_true, decide_eq_true_eq] at hK
      show (hexPairs rest ++ List.replicate 12 0).length = 32
      rw [List.length_append, hexPairs_length, hK.1]
      rfl
  · simp at hK

theorem decrypt_wire_ok {key m iv : List Nat} {K : List Char}
    (hkOk : BytesOk key) (hm : BytesOk m) (hiv : BytesOk iv)
    (hivlen : iv.length = 12) (hd : deriveAesKeyFromAddress K = .ok key) :
    decryptWithAddressKey
      ('s' :: 'l' :: '1' :: ':' ::
        (btoaBytes iv ++ ':' :: btoaBytes (gcmEncrypt key iv m))) K =
      .ok m := by
  have hcbOk : BytesOk (gcmEncrypt key iv m) := gcmEncrypt_bytesOk hkOk hiv hm
  have hcne : gcmEncrypt key iv m ≠ [] := by
    intro he
    have hl := congrArg List.length he
    rw [gcmEncrypt_length] at hl
    simp at hl
  have hine : iv ≠ [] := by
    intro he
    rw [he] at hivlen
    simp at hivlen
  have hsp : splitOnColon ('s' :: 'l' :: '1' :: ':' ::
      (btoaBytes iv ++ ':' :: btoaBytes (gcmEncrypt key iv m))) =
      [['s', 'l', '1'], btoaBytes iv, btoaBytes (gcmEncrypt key iv m)] := by
    show splitOnColon (['s', 'l', '1'] ++ ':' ::
      (btoaBytes iv ++ ':' :: btoaBytes (gcmEncrypt key iv m))) = _
    rw [splitOnColon_append (by decide),
      splitOnColon_append (btoaBytes_no_colon iv hiv),
      splitOnColon_no_colon (btoaBytes_no_colon _ hcbOk)]
  simp only [decryptWithAddressKey, hsp, List.headD_cons, List.getD_cons_succ,
    List.getD_cons_zero]
  rw [if_neg]
  · simp only [hd, base64ToBytes, atob_btoa iv hiv, atob_btoa _ hcbOk,
      gcmDecrypt_encrypt]
  · push_neg
    exact ⟨by decide, btoaBytes_ne_nil hine, btoaBytes_ne_nil hcne⟩

theorem c4_pfx_ne {R K h3 : List Char} {p : List Nat}
    (hno : ∀ c ∈ h3, c ≠ ':') (hne : h3 ≠ "sl1".data)
    (hdec : decryptWithAddressKey (h3 ++ ':' :: R) K = .ok p) : False := by
  simp only [decryptWithAddressKey, splitOnColon_append hno,
    List.headD_cons] at hdec
  split_ifs at hdec with hcond
  exact hcond (Or.inl hne)

theorem c4_iv_colon {key iv : List Nat} {K : List Char} {p : List Nat}
    (hkey32 : key.length = 32) (hiv : BytesOk iv) (hivlen : iv.length = 12)
    (hd : deriveAesKeyFromAddress K = .ok key) {t4 : Nat} (ht4 : t4 < 16)
    {C : List Char} (hCcol : ∀ c ∈ C, c ≠ ':')
    (hdec : decryptWithAddressKey ('s' :: 'l' :: '1' :: ':' ::
      ((btoaBytes iv).take t4 ++ ':' ::
        ((btoaBytes iv).drop (t4 + 1) ++ ':' :: C))) K = .ok p) : False := by
  have hIcol := btoaBytes_no_colon iv hiv
  have hIlen : (btoaBytes iv).length = 16 := by
    obtain ⟨hbt, hvlen⟩ := btoa_twelve hivlen
    rw [hbt, List.length_map, hvlen]
  have hsp : splitOnColon ('s' :: 'l' :: '1' :: ':' ::
      ((btoaBytes iv).take t4 ++ ':' ::
        ((btoaBytes iv).drop (t4 + 1) ++ ':' :: C))) =
      [['s', 'l', '1'], (btoaBytes iv).take t4,
        (btoaBytes iv).drop (t4 + 1), C] := by
    show splitOnColon (['s', 'l', '1'] ++ ':' ::
      ((btoaBytes iv).take t4 ++ ':' ::
        ((btoaBytes iv).drop (t4 + 1) ++ ':' :: C))) = _
    rw [splitOnColon_append (by decide),
      splitOnColon_append (fun c hc => hIcol c (List.mem_of_mem_take hc)),
      splitOnColon_append (fun c hc => hIcol c (List.mem_of_mem_drop hc)),
      splitOnColon_no_colon hCcol]
  simp only [decryptWithAddressKey, hsp, List.headD_cons, List.getD_cons_succ,
    List.getD_cons_zero] at hdec
  by_cases ht40 : t4 = 0
  · subst ht40
    split_ifs at hdec with hcond
    exact hcond (Or.inr (Or.inl (by simp)))
  · by_cases ht415 : t4 = 15
    · subst ht415
      split_ifs at hdec with hcond
      exact hcond (Or.inr (Or.inr (List.drop_eq_nil_of_le (by omega))))
    · rw [if_neg (by
        push_neg
        refine ⟨by decide, ?_, ?_⟩
        · intro he
          have hl := congrArg List.length he
          rw [List.length_take, hIlen] at hl
          simp at hl
          omega
        · intro he
          have hl := congrArg List.length he
          rw [List.length_drop, hIlen] at hl
          simp at hl
          omega)] at hdec
      simp only [hd] at hdec
      cases hb1 : base64ToBytes ((btoaBytes iv).take t4) with
      | none => simp [hb1] at hdec
      | some iv2 =>
          simp only [hb1] at hdec
          cases hb2 : base64ToBytes ((btoaBytes iv).drop (t4 + 1)) with
          | none => simp [hb2] at hdec
          | some c2 =>
              simp only [hb2] at hdec
              have hc2b := atob_length_bound
                (show atobChars ((btoaBytes iv).drop (t4 + 1)) = some c2
                  from hb2)
              rw [List.length_drop, hIlen] at hc2b
              have hgd : gcmDecrypt key iv2 c2 = none := by
                simp only [gcmDecrypt]
                rw [if_pos (by omega)]
              simp [hgd] at hdec

theorem c4_iv_set {key m iv : List Nat} {K : List Char} {p : List Nat}
    (hkOk : BytesOk key)
    (hm : BytesOk m) (hiv : BytesOk iv) (hivlen : iv.length = 12)
    (hd : deriveAesKeyFromAddress K = .ok key)
    {t4 : Nat} (ht4 : t4 < 16) {x : Char} (hcol : x ≠ ':')
    (hdec : decryptWithAddressKey ('s' :: 'l' :: '1' :: ':' ::
      ((btoaBytes iv).set t4 x ++ ':' ::
        btoaBytes (gcmEncrypt key iv m))) K = .ok p) : p = m := by
  have hcbOk : BytesOk (gcmEncrypt key iv m) := gcmEncrypt_bytesOk hkOk hiv hm
  have hcne : gcmEncrypt key iv m ≠ [] := by
    intro he
    have hl := congrArg List.length he
    rw [gcmEncrypt_length] at hl
    simp at hl
  have hCne : btoaBytes (gcmEncrypt key iv m) ≠ [] := btoaBytes_ne_nil hcne
  have hCcol := btoaBytes_no_colon _ hcbOk
  have hIcol := btoaBytes_no_colon iv hiv
  have hIlen : (btoaBytes iv).length = 16 := by
    obtain ⟨hbt, hvlen⟩ := btoa_twelve hivlen
    rw [hbt, List.length_map, hvlen]
  have hsetcol : ∀ c ∈ (btoaBytes iv).set t4 x, c ≠ ':' := by
    intro c hc
    rcases List.mem_or_eq_of_mem_set hc with hc2 | rfl
    · exact hIcol c hc2
    · exact hcol
  have hsetne : (btoaBytes iv).set t4 x ≠ [] := by
    intro he
    have hl := congrArg List.length he
    rw [List.length_set, hIlen] at hl
    simp at hl
  have hsp : splitOnColon ('s' :: 'l' :: '1' :: ':' ::
      ((btoaBytes iv).set t4 x ++ ':' :: btoaBytes (gcmEncrypt key iv m))) =
      [['s', 'l', '1'], (btoaBytes iv).set t4 x,
        btoaBytes (gcmEncrypt key iv m)] := by
    show splitOnColon (['s', 'l', '1'] ++ ':' ::
      ((btoaBytes iv).set t4 x ++ ':' :: btoaBytes (gcmEncrypt key iv m))) = _
    rw [splitOnColon_append (by decide), splitOnColon_append hsetcol,
      splitOnColon_no_colon hCcol]
  simp only [decryptWithAddressKey, hsp, List.headD_cons, List.getD_cons_succ,
    List.getD_cons_zero] at hdec
  rw [if_neg (by
    push_neg
    exact ⟨by decide, hsetne, hCne⟩)] at hdec
  simp only [hd] at hdec
  cases hb1 : base64ToBytes ((btoaBytes iv).set t4 x) with
  | none => simp [hb1] at hdec
  | some iv2 =>
      simp only [hb1] at hdec
      rw [show base64ToBytes (btoaBytes (gcmEncrypt key iv m)) =
        some (gcmEncrypt key iv m) from atob_btoa _ hcbOk] at hdec
      cases hg : gcmDecrypt key iv2 (gcmEncrypt key iv m) with
      | none => simp [hg] at hdec
      | some q =>
          simp only [hg] at hdec
          injection hdec with hqp
          have hinv := gcmDecrypt_inv hg
          rcases c4_iv_seg hiv hivlen ht4 hb1 with h12 | h11
          · rw [← hqp]
            exact (gcm_inj (by rw [h12, hivlen]) hinv.symm).1
          · exfalso
            have hL := congrArg List.length hinv
            rw [gcmEncrypt_length, gcmEncrypt_length] at hL
            omega

theorem c4_C_colon_case {key m iv : List Nat} {K : List Char} {p : List Nat}
    (hkOk : BytesOk key) (hm : BytesOk m)
    (hm64 : m.length < 9007199254740991)
    (hiv : BytesOk iv) (hivlen : iv.length = 12)
    (hd : deriveAesKeyFromAddress K = .ok key)
    {j : Nat} (hj : j < (btoaBytes (gcmEncrypt key iv m)).length)
    (hdec : decryptWithAddressKey ('s' :: 'l' :: '1' :: ':' ::
      (btoaBytes iv ++ ':' ::
        ((btoaBytes (gcmEncrypt key iv m)).take j ++ ':' ::
          (btoaBytes (gcmEncrypt key iv m)).drop (j + 1)))) K = .ok p) :
    p = m := by
  have hcbOk : BytesOk (gcmEncrypt key iv m) := gcmEncrypt_bytesOk hkOk hiv hm
  have hCcol := btoaBytes_no_colon _ hcbOk
  have hIcol := btoaBytes_no_colon iv hiv
  have hine : iv ≠ [] := by
    intro he
    rw [he] at hivlen
    simp at hivlen
  have hIne : btoaBytes iv ≠ [] := btoaBytes_ne_nil hine
  have hsp : splitOnColon ('s' :: 'l' :: '1' :: ':' ::
      (btoaBytes iv ++ ':' ::
        ((btoaBytes (gcmEncrypt key iv m)).take j ++ ':' ::
          (btoaBytes (gcmEncrypt key iv m)).drop (j + 1)))) =
      [['s', 'l', '1'], btoaBytes iv,
        (btoaBytes (gcmEncrypt key iv m)).take j,
        (btoaBytes (gcmEncrypt key iv m)).drop (j + 1)] := by
    show splitOnColon (['s', 'l', '1'] ++ ':' ::
      (btoaBytes iv ++ ':' ::
        ((btoaBytes (gcmEncrypt key iv m)).take j ++ ':' ::
          (btoaBytes (gcmEncrypt key iv m)).drop (j + 1)))) = _
    rw [splitOnColon_append (by decide), splitOnColon_append hIcol,
      splitOnColon_append (fun c hc => hCcol c (List.mem_of_mem_take hc)),
      splitOnColon_no_colon (fun c hc => hCcol c (List.mem_of_mem_drop hc))]
  simp only [decryptWithAddressKey, hsp, List.headD_cons, List.getD_cons_succ,
    List.getD_cons_zero] at hdec
  by_cases hj0 : j = 0
  · subst hj0
    split_ifs at hdec with hcond
    exact absurd (Or.inr (Or.inr (by simp))) hcond
  · rw [if_neg (by
      push_neg
      refine ⟨by decide, hIne, ?_⟩
      intro he
      have hl := congrArg List.length he
      rw [List.length_take, List.length_nil] at hl
      rcases Nat.min_eq_zero_iff.mp hl with h0 | h0 <;> omega)] at hdec
    simp only [hd] at hdec
    rw [show base64ToBytes (btoaBytes iv) = some iv from atob_btoa iv hiv]
      at hdec
    cases hb2 : base64ToBytes ((btoaBytes (gcmEncrypt key iv m)).take j) with
    | none => simp [hb2] at hdec
    | some c2 =>
        simp only [hb2] at hdec
        cases hg : gcmDecrypt key iv c2 with
        | none => simp [hg] at hdec
        | some q =>
            simp only [hg] at hdec
            injection hdec with hqp
            rw [← hqp]
            exact c4_C_colon hcbOk rfl hm64 j hj hb2 (gcmDecrypt_inv hg)

set_option maxHeartbeats 1000000 in
theorem c4_C_set_case {key m iv : List Nat} {K : List Char} {p : List Nat}
    (hkOk : BytesOk key) (hkey32 : key.length = 32) (hm : BytesOk m)
    (hiv : BytesOk iv) (hivlen : iv.length = 12)
    (hd : deriveAesKeyFromAddress K = .ok key)
    {j : Nat} (hj : j < (btoaBytes (gcmEncrypt key iv m)).length)
    {x : Char} (hcol : x ≠ ':')
    (hdec : decryptWithAddressKey ('s' :: 'l' :: '1' :: ':' ::
      (btoaBytes iv ++ ':' ::
        (btoaBytes (gcmEncrypt key iv m)).set j x)) K = .ok p) : p = m := by
  have hcbOk : BytesOk (gcmEncrypt key iv m) := gcmEncrypt_bytesOk hkOk hiv hm
  have hCcol := btoaBytes_no_colon _ hcbOk
  have hIcol := btoaBytes_no_colon iv hiv
  have hine : iv ≠ [] := by
    intro he
    rw [he] at hivlen
    simp at hivlen
  have hIne : btoaBytes iv ≠ [] := btoaBytes_ne_nil hine
  have hsetcol : ∀ c ∈ (btoaBytes (gcmEncrypt key iv m)).set j x, c ≠ ':' := by
    intro c hc
    rcases List.mem_or_eq_of_mem_set hc with hc2 | rfl
    · exact hCcol c hc2
    · exact hcol
  have hsetne : (btoaBytes (gcmEncrypt key iv m)).set j x ≠ [] := by
    intro he
    have hl := congrArg List.length he
    rw [List.length_set, List.length_nil] at hl
    omega
  have hsp : splitOnColon ('s' :: 'l' :: '1' :: ':' ::
      (btoaBytes iv ++ ':' :: (btoaBytes (gcmEncrypt key iv m)).set j x)) =
      [['s', 'l', '1'], btoaBytes iv,
        (btoaBytes (gcmEncrypt key iv m)).set j x] := by
    show splitOnColon (['s', 'l', '1'] ++ ':' ::
      (btoaBytes iv ++ ':' :: (btoaBytes (gcmEncrypt key iv m)).set j x)) = _
    rw [splitOnColon_append (by decide), splitOnColon_append hIcol,
      splitOnColon_no_colon hsetcol]
  simp only [decryptWithAddressKey, hsp, List.headD_cons, List.getD_cons_succ,
    List.getD_cons_zero] at hdec
  rw [if_neg (by
    push_neg
    exact ⟨by decide, hIne, hsetne⟩)] at hdec
  simp only [hd] at hdec
  rw [show base64ToBytes (btoaBytes iv) = some iv from atob_btoa iv hiv]
    at hdec
  cases hb2 : base64ToBytes ((btoaBytes (gcmEncrypt key iv m)).set j x) with
  | none => simp [hb2] at hdec
  | some c2 =>
      simp only [hb2] at hdec
      cases hg : gcmDecrypt key iv c2 with
      | none => simp [hg] at hdec
      | some q =>
          simp only [hg] at hdec
          injection hdec with hqp
          rw [← hqp]
          exact c4_C_seg hcbOk rfl hkey32 hivlen hj hb2 (gcmDecrypt_inv hg)

theorem c4_main {key m iv : List Nat} {K : List Char}
    (hkOk : BytesOk key) (hkey32 : key.length = 32)
    (hm : BytesOk m) (hm64 : m.length < 9007199254740991)
    (hiv : BytesOk iv) (hivlen : iv.length = 12)
    (hd : deriveAesKeyFromAddress K = .ok key)
    (t : Nat) (x : Char) {p : List Nat}
    (hdec : decryptWithAddressKey
      (('s' :: 'l' :: '1' :: ':' ::
        (btoaBytes iv ++ ':' :: btoaBytes (gcmEncrypt key iv m))).set t x) K =
      .ok p) :
    p = m := by
  have hcbOk : BytesOk (gcmEncrypt key iv m) := gcmEncrypt_bytesOk hkOk hiv hm
  have hIcol := btoaBytes_no_colon iv hiv
  have hCcol := btoaBytes_no_colon _ hcbOk
  have hIlen : (btoaBytes iv).length = 16 := by
    obtain ⟨hbt, hvlen⟩ := btoa_twelve hivlen
    rw [hbt, List.length_map, hvlen]
  have hok := decrypt_wire_ok hkOk hm hiv hivlen hd
  by_cases htlen : ('s' :: 'l' :: '1' :: ':' ::
      (btoaBytes iv ++ ':' :: btoaBytes (gcmEncrypt key iv m))).length ≤ t
  · rw [List.set_eq_of_length_le htlen, hok] at hdec
    injection hdec with h
    exact h.symm
  · push_neg at htlen
    have htC : t < 21 + (btoaBytes (gcmEncrypt key iv m)).length := by
      simp only [List.length_cons, List.length_append, hIlen] at htlen
      omega
    clear htlen
    rcases t with _ | _ | _ | _ | t4
    · by_cases hx : x = 's'
      · subst hx
        have hdec2 : decryptWithAddressKey ('s' :: 'l' :: '1' :: ':' ::
            (btoaBytes iv ++ ':' :: btoaBytes (gcmEncrypt key iv m))) K =
            .ok p := hdec
        rw [hok] at hdec2
        injection hdec2 with h
        exact h.symm
      · exfalso
        by_cases hcol : x = ':'
        · subst hcol
          have hdec2 : decryptWithAddressKey (([] : List Char) ++ ':' ::
              ('l' :: '1' :: ':' ::
                (btoaBytes iv ++ ':' ::
                  btoaBytes (gcmEncrypt key iv m)))) K = .ok p := hdec
          exact c4_pfx_ne (by simp) (by decide) hdec2
        · have hdec2 : decryptWithAddressKey ([x, 'l', '1'] ++ ':' ::
              (btoaBytes iv ++ ':' :: btoaBytes (gcmEncrypt key iv m))) K =
              .ok p := hdec
          refine c4_pfx_ne ?_ ?_ hdec2
          · intro c hc
            simp only [List.mem_cons, List.not_mem_nil, or_false] at hc
            rcases hc with rfl | rfl | rfl
            · exact hcol
            · decide
            · decide
          · intro hh
            injection hh with h1 _
            exact hx h1
    · by_cases hx : x = 'l'
      · subst hx
        have hdec2 : decryptWithAddressKey ('s' :: 'l' :: '1' :: ':' ::
            (btoaBytes iv ++ ':' :: btoaBytes (gcmEncrypt key iv m))) K =
            .ok p := hdec
        rw [hok] at hdec2
        injection hdec2 with h
        exact h.symm
      · exfalso
        by_cases hcol : x = ':'
        · subst hcol
          have hdec2 : decryptWithAddressKey (['s'] ++ ':' ::
              ('1' :: ':' ::
                (btoaBytes iv ++ ':' ::
                  btoaBytes (gcmEncrypt key iv m)))) K = .ok p := hdec
          exact c4_pfx_ne (by decide) (by decide) hdec2
        · have hdec2 : decryptWithAddressKey (['s', x, '1'] ++ ':' ::
              (btoaBytes iv ++ ':' :: btoaBytes (gcmEncrypt key iv m))) K =
              .ok p := hdec
          refine c4_pfx_ne ?_ ?_ hdec2
          · intro c hc
            simp only [List.mem_cons, List.not_mem_nil, or_false] at hc
            rcases hc with rfl | rfl | rfl
            · decide
            · exact hcol
            · decide
          · intro hh
            injection hh with _ h2
            injection h2 with h3 _
            exact hx h3
    · by_cases hx : x = '1'
      · subst hx
        have hdec2 : decryptWithAddressKey ('s' :: 'l' :: '1' :: ':' ::
            (btoaBytes iv ++ ':' :: btoaBytes (gcmEncrypt key iv m))) K =
            .ok p := hdec
        rw [hok] at hdec2
        injection hdec2 with h
        exact h.symm
      · exfalso
        by_cases hcol : x = ':'
        · subst hcol
          have hdec2 : decryptWithAddressKey (['s', 'l'] ++ ':' ::
              (':' :: (btoaBytes iv ++ ':' ::
                btoaBytes (gcmEncrypt key iv m)))) K = .ok p := hdec
          exact c4_pfx_ne (by decide) (by decide) hdec2
        · have hdec2 : decryptWithAddressKey (['s', 'l', x] ++ ':' ::
              (btoaBytes iv ++ ':' :: btoaBytes (gcmEncrypt key iv m))) K =
              .ok p := hdec
          refine c4_pfx_ne ?_ ?_ hdec2
          · intro c hc
            simp only [List.mem_cons, List.not_mem_nil, or_false] at hc
            rcases hc with rfl | rfl | rfl
            · decide
            · decide
            · exact hcol
          · intro hh
            injection hh with _ h2
            injection h2 with _ h3
            injection h3 with h4 _
            exact hx h4
    · by_cases hcol : x = ':'
      · subst hcol
        have hdec2 : decryptWithAddressKey ('s' :: 'l' :: '1' :: ':' ::
            (btoaBytes iv ++ ':' :: btoaBytes (gcmEncrypt key iv m))) K =
            .ok p := hdec
        rw [hok] at hdec2
        injection hdec2 with h
        exact h.symm
      · exfalso
        have hdec2 : decryptWithAddressKey
            ((['s', 'l', '1', x] ++ btoaBytes iv) ++ ':' ::
              btoaBytes (gcmEncrypt key iv m)) K = .ok p := hdec
        refine c4_pfx_ne ?_ ?_ hdec2
        · intro c hc
          rcases List.mem_append.mp hc with hc1 | hc2
          · simp only [List.mem_cons, List.not_mem_nil, or_false] at hc1
            rcases hc1 with rfl | rfl | rfl | rfl
            · decide
            · decide
            · decide
            · exact hcol
          · exact hIcol c hc2
        · intro hh
          have hl := congrArg List.length hh
          have h3l : ("sl1".data).length = 3 := by decide
          rw [List.length_append, hIlen, h3l] at hl
          simp only [List.length_cons, List.length_nil] at hl
          omega
    · simp only [List.set_cons_succ] at hdec
      by_cases ht4 : t4 < 16
      · rw [List.set_append_left t4 x (by rw [hIlen]; exact ht4)] at hdec
        by_cases hcol : x = ':'
        · subst hcol
          exfalso
          rw [List.set_eq_take_cons_drop ':' (by rw [hIlen]; exact ht4),
            List.append_assoc, List.cons_append] at hdec
          exact c4_iv_colon hkey32 hiv hivlen hd ht4 hCcol hdec
        · exact c4_iv_set hkOk hm hiv hivlen hd ht4 hcol hdec
      · by_cases ht16 : t4 = 16
        · subst ht16
          rw [List.set_append_right 16 x hIlen.le] at hdec
          rw [show 16 - (btoaBytes iv).length = 0 from by rw [hIlen]] at hdec
          simp only [List.set_cons_zero] at hdec
          by_cases hcol : x = ':'
          · subst hcol
            rw [hok] at hdec
            injection hdec with h
            exact h.symm
          · exfalso
            have hsp : splitOnColon ('s' :: 'l' :: '1' :: ':' ::
                (btoaBytes iv ++ x :: btoaBytes (gcmEncrypt key iv m))) =
                [['s', 'l', '1'],
                  btoaBytes iv ++ x :: btoaBytes (gcmEncrypt key iv m)] := by
              show splitOnColon (['s', 'l', '1'] ++ ':' ::
                (btoaBytes iv ++ x :: btoaBytes (gcmEncrypt key iv m))) = _
              rw [splitOnColon_append (by decide), splitOnColon_no_colon (by
                intro c hc
                rcases List.mem_append.mp hc with hc1 | hc2
                · exact hIcol c hc1
                · rcases List.mem_cons.mp hc2 with rfl | hc3
                  · exact hcol
                  · exact hCcol c hc3)]
            simp only [decryptWithAddressKey, hsp, List.headD_cons,
              List.getD_cons_succ, List.getD_cons_zero] at hdec
            split_ifs at hdec with hcond
            exact hcond (Or.inr (Or.inr rfl))
        · have hj : t4 - 17 < (btoaBytes (gcmEncrypt key iv m)).length := by
            omega
          rw [List.set_append_right t4 x (by rw [hIlen]; omega)] at hdec
          rw [show t4 - (btoaBytes iv).length = (t4 - 17) + 1 from by
            rw [hIlen]; omega] at hdec
          simp only [List.set_cons_succ] at hdec
          by_cases hcol : x = ':'
          · subst hcol
            rw [List.set_eq_take_cons_drop ':' hj] at hdec
            exact c4_C_colon_case hkOk hm hm64 hiv hivlen hd hj hdec
          · exact c4_C_set_case hkOk hkey32 hm hiv hivlen hd hj hcol hdec

/-- **C4 (amended).**  For every wire string `w` produced by encrypt under a
well-formed key `K`, changing any single character of `w` (any position, any
replacement character) never makes decrypt under `K` silently return a
plaintext different from the original: every outcome is either an error or
exactly the original plaintext `m`.  (The stronger claim that any such change
always causes a failure is refuted by `c4_counterexample`: a change confined
to the unused leftover bits of the final base64 character decodes to the same
ciphertext and decrypts successfully to `m`.) -/
theorem c4_tamper_detect_or_original (m iv : List Nat) (K w : List Char)
    (hm : BytesOk m) (hm64 : m.length < 9007199254740991)
    (hK : addressReTest K = true) (hiv : BytesOk iv) (hivlen : iv.length = 12)
    (hw : encryptWithAddressKey m K iv = .ok w)
    (t : Nat) (x : Char) (p : List Nat)
    (hdec : decryptWithAddressKey (w.set t x) K = .ok p) : p = m := by
  have hd := deriveAesKey_ok hK
  have hkOk : BytesOk (sha256Model (hexToBytes K)) :=
    sha256Model_bytesOk (hexPairs_bytesOk _)
  have hkey32 := key_length_32 hK
  simp only [encryptWithAddressKey, hd] at hw
  injection hw with hw
  have hwEq : w = 's' :: 'l' :: '1' :: ':' ::
      (btoaBytes iv ++ ':' ::
        btoaBytes (gcmEncrypt (sha256Model (hexToBytes K)) iv m)) := by
    rw [← hw]
    show "sl1:".data ++ btoaBytes iv ++ ":".data ++
      btoaBytes (gcmEncrypt (sha256Model (hexToBytes K)) iv m) = _
    rw [show "sl1:".data = ['s', 'l', '1', ':'] from rfl,
      show ":".data = [':'] from rfl]
    simp
  rw [hwEq] at hdec
  exact c4_main hkOk hkey32 hm hm64 hiv hivlen hd t x hdec

/-- Witness for the amended C4 at a concrete plaintext, key, nonce, tamper
position and replacement character. -/
theorem c4_witness :
    (BytesOk exM1 ∧ exM1.length < 9007199254740991 ∧
      addressReTest exKey = true ∧ BytesOk exIv ∧ exIv.length = 12 ∧
      encryptWithAddressKey exM1 exKey exIv = .ok exWire1 ∧
      decryptWithAddressKey (exWire1.set 95 'B') exKey = .ok exM1) ∧
    exM1 = exM1 :=
  ⟨⟨by decide, by decide, by decide, by decide, by decide, by decide,
    by decide⟩,
    c4_tamper_detect_or_original exM1 exIv exKey exWire1 (by decide)
      (by decide) (by decide) (by decide) (by decide) (by decide) 95 'B' exM1
      (by decide)⟩
